import Mathlib

/-!
# topk_words: word counting with three aggregation strategies

A shallow embedding of `main.cpp` and a verification of its word-count tables,
its aggregation strategies (sequential, `std::async` tasks, `std::thread`s) and
its top-K report.

* A `std::string` is the list of its bytes (`unsigned char` values).
* A `Counter` (`std::map<std::string, std::size_t>`) is the list of its entries in
  iteration order, that is in ascending key order; counts are `size_t` values and
  wrap modulo `2 ^ 64`.
* The file system is a function from file names to the content of the file, when
  it can be opened.
* The concurrent strategies are a transition system over the workers of one run:
  a schedule picks, at every step, the worker that moves.
-/

namespace TopkWords

/-! ## Strings and tables -/

/-- A `std::string`: its bytes, each an `unsigned char` value. -/
abbrev Str := List Nat

/-- The number of values of `std::size_t` (64-bit target): counts wrap modulo it. -/
def SIZE_MOD : Nat := 2 ^ 64

/-- The order of `std::less<std::string>`: lexicographic on the bytes, a proper
prefix coming first. -/
def strLt : Str → Str → Bool
  | [], [] => false
  | [], _ :: _ => true
  | _ :: _, [] => false
  | a :: as, b :: bs => if a < b then true else if b < a then false else strLt as bs

/-- The type `Counter = std::map<std::string, std::size_t>`, as the list of its
entries in iteration order. -/
abbrev Counter := List (Str × Nat)

/-- The well-formed tables: keys strictly ascending (so unique), counts in the
range of `size_t`. -/
def Counter.wf : Counter → Bool
  | [] => true
  | (k, v) :: rest =>
      decide (v < SIZE_MOD) && rest.all (fun e => strLt k e.1) && Counter.wf rest

/-- The call `counter.find(w)`, giving the mapped count when the key is present. -/
def Counter.find : Counter → Str → Option Nat
  | [], _ => none
  | (k, v) :: rest, w => if k = w then some v else Counter.find rest w

/-- The count of `w` in the table, `0` when the key is absent. -/
def Counter.cnt (t : Counter) (w : Str) : Nat := (t.find w).getD 0

/-- The update `counter[w] = f(counter[w])`: `operator[]` finds the entry of key
`w`, or inserts one with the value-initialised count `0` at its place in key
order, and `f` is applied to the mapped count. -/
def Counter.modify (w : Str) (f : Nat → Nat) : Counter → Counter
  | [] => [(w, f 0)]
  | (k, v) :: rest =>
      if strLt w k then (w, f 0) :: (k, v) :: rest
      else if strLt k w then (k, v) :: Counter.modify w f rest
      else (k, f v) :: rest

/-- The statement `++counter[w]` of `count_words`, on `size_t`. -/
def Counter.incr (w : Str) (t : Counter) : Counter :=
  Counter.modify w (fun v => (v + 1) % SIZE_MOD) t

/-- The statement `freq_dict[w] += c` of `threadsafe_count_file`, on `size_t`. -/
def Counter.addTo (w : Str) (c : Nat) (t : Counter) : Counter :=
  Counter.modify w (fun v => (v + c) % SIZE_MOD) t

/-! ## Tokenizer -/

/-- A character that `std::isspace` accepts in the classic locale: space, and
`\t \n \v \f \r`. -/
def isspace (c : Nat) : Bool := c == 32 || (9 ≤ c && c ≤ 13)

/-- The function `tolower`: `std::tolower` on every byte, in the classic locale. -/
def tolower (str : Str) : Str :=
  str.map (fun ch => if 65 ≤ ch ∧ ch ≤ 90 then ch + 32 else ch)

/-- One `stream >> s` on a `std::string`: leading whitespace is skipped, then the
characters up to the next whitespace or the end of the stream are extracted; the
extraction fails when no character is left. Gives the token and the rest of the
stream. -/
def extract (stream : List Nat) : Option (Str × List Nat) :=
  let s := stream.dropWhile isspace
  if s = [] then none
  else some (s.takeWhile (fun c => !isspace c), s.dropWhile (fun c => !isspace c))

/-- The loop of `std::for_each` over `std::istream_iterator<std::string>` in
`count_words`: one token is extracted per round, until the extraction fails.
`fuel` bounds the number of rounds. -/
def count_words_loop : Nat → List Nat → Counter → Counter
  | 0, _, counter => counter
  | fuel + 1, stream, counter =>
      match extract stream with
      | none => counter
      | some (s, rest) => count_words_loop fuel rest (Counter.incr (tolower s) counter)

/-- The function `count_words`. Every round consumes a character at least, so the
length of the stream is fuel enough. -/
def count_words (stream : List Nat) (counter : Counter) : Counter :=
  count_words_loop stream.length stream counter

/-- The maximal runs of non-whitespace characters of a stream, in the words of the
specification: the stream is cut at every whitespace character and the non-empty
pieces are kept. -/
def maximalRuns (stream : List Nat) : List Str :=
  (stream.splitOnP isspace).filter (fun r => !r.isEmpty)

/-- The number of maximal runs of the stream whose lowercased form is `w`. -/
def runCount (stream : List Nat) (w : Str) : Nat :=
  ((maximalRuns stream).map tolower).count w

/-! ## Files -/

/-- The file system: the content of a named file, or `none` when
`std::ifstream` cannot open it. -/
abbrev FileSystem := Str → Option (List Nat)

/-- The function `count_file`. `opened` is the log of the names `std::ifstream` was
constructed on. Gives the return value, the table and the log. -/
def count_file (fs : FileSystem) (filename : Str) (freq_dict : Counter)
    (opened : List Str) : Bool × Counter × List Str :=
  match fs filename with
  | none => (false, freq_dict, opened ++ [filename])
  | some input => (true, count_words input freq_dict, opened ++ [filename])

/-- The function `count_files_sync`: the loop over the null-terminated array
`filenames`, left at the first file `count_file` fails on. -/
def count_files_sync (fs : FileSystem) :
    List Str → Counter → List Str → Bool × Counter × List Str
  | [], freq_dict, opened => (true, freq_dict, opened)
  | filename :: rest, freq_dict, opened =>
      match count_file fs filename freq_dict opened with
      | (false, freq_dict1, opened1) => (false, freq_dict1, opened1)
      | (true, freq_dict1, opened1) => count_files_sync fs rest freq_dict1 opened1

/-- The loop of `threadsafe_count_file` without its lock, run on its own: for every
entry of `current_freq_dict`, in iteration order, `freq_dict[word] += count`. -/
def merge (current_freq_dict freq_dict : Counter) : Counter :=
  current_freq_dict.foldl (fun acc e => Counter.addTo e.1 e.2 acc) freq_dict

/-- The tokens `count_words_loop` extracts from the stream, in order. -/
def tokens_loop : Nat → List Nat → List Str
  | 0, _ => []
  | fuel + 1, stream =>
      match extract stream with
      | none => []
      | some (s, rest) => s :: tokens_loop fuel rest

/-- Whether a list of `(word, count)` updates has an update of key `k`. -/
def touched (es : List (Str × Nat)) (k : Str) : Bool := es.any (fun e => decide (e.1 = k))

/-- The sum of the counts that a list of `(word, count)` updates adds to key `k`. -/
def tally (es : List (Str × Nat)) (k : Str) : Nat :=
  ((es.filter (fun e => decide (e.1 = k))).map Prod.snd).sum

/-- The updates `++counter[tolower(s)]` of `count_words` on a stream, as
`(word, 1)` updates, one per maximal run. -/
def wordUpdates (stream : List Nat) : List (Str × Nat) :=
  (maximalRuns stream).map (fun s => (tolower s, 1))

/-! ## The concurrent strategies -/

/-- The two concurrent strategies: `count_files_async` and `count_files_thread`. -/
inductive Strategy
  | async
  | thread
  deriving DecidableEq

/-- Where a worker (the lambda run by `std::async` or by a `std::thread`) stands in
`threadsafe_count_file`.
* `start`: before `count_file(filename, current_freq_dict)`;
* `loop rest`: at the head of the range-for, `rest` being the entries of
  `current_freq_dict` still to merge; the next action constructs `std::lock_guard g{m}`;
* `locked e rest`: holds `m`, before `freq_dict[e.first] += e.second`;
* `written rest`: has made the update, before `g` is destroyed at the end of the
  loop body;
* `returned r`: `threadsafe_count_file` has returned `r`, the lambda has not ended;
* `done r`: the lambda has ended (the future holds `r`; the thread can be joined). -/
inductive Pc
  | start
  | loop (rest : List (Str × Nat))
  | locked (e : Str × Nat) (rest : List (Str × Nat))
  | written (rest : List (Str × Nat))
  | returned (r : Bool)
  | done (r : Bool)
  deriving DecidableEq

/-- A worker: the file name it captured and its program point. -/
structure Worker where
  filename : Str
  pc : Pc
  deriving DecidableEq

/-- The state of one run of a concurrent strategy: the shared table, the owner of
the static mutex `m` of `threadsafe_count_file`, the workers in launch order, the
atomic `total_result` of `count_files_thread`, and the log of opened names. -/
structure State where
  freq_dict : Counter
  m : Option Nat
  workers : List Worker
  total_result : Bool
  opened : List Str
  deriving DecidableEq

/-- One atomic action of worker `i` inside `threadsafe_count_file(filename,
freq_dict)`: the call of `count_file` on the private table `current_freq_dict`, or
one of the three actions of a round of the merge loop (construction of the
`std::lock_guard`, which waits while the mutex is owned; the update of
`freq_dict`; destruction of the guard), or the return. -/
def threadsafe_count_file (fs : FileSystem) (i : Nat) (w : Worker) (s : State) : State :=
  match w.pc with
  | Pc.start =>
      match count_file fs w.filename [] s.opened with
      | (false, _, opened1) =>
          { s with workers := s.workers.set i { w with pc := Pc.returned false },
                   opened := opened1 }
      | (true, current_freq_dict, opened1) =>
          { s with workers := s.workers.set i { w with pc := Pc.loop current_freq_dict },
                   opened := opened1 }
  | Pc.loop [] => { s with workers := s.workers.set i { w with pc := Pc.returned true } }
  | Pc.loop (e :: rest) =>
      match s.m with
      | none => { s with m := some i,
                         workers := s.workers.set i { w with pc := Pc.locked e rest } }
      | some _ => s
  | Pc.locked e rest =>
      { s with freq_dict := Counter.addTo e.1 e.2 s.freq_dict,
               workers := s.workers.set i { w with pc := Pc.written rest } }
  | Pc.written rest =>
      { s with m := none, workers := s.workers.set i { w with pc := Pc.loop rest } }
  | Pc.returned _ => s
  | Pc.done _ => s

/-- One atomic action of worker `i`: an action of `threadsafe_count_file`, or, once
it has returned `r`, the end of the lambda: in `count_files_async` the future gets
`r`; in `count_files_thread`, `total_result = false` when `r` is false. A worker that
waits for the mutex, or has ended, or does not exist, leaves the state as it is. -/
def step (strategy : Strategy) (fs : FileSystem) (i : Nat) (s : State) : State :=
  match s.workers[i]? with
  | none => s
  | some w =>
      match w.pc with
      | Pc.returned r =>
          match strategy with
          | Strategy.async => { s with workers := s.workers.set i { w with pc := Pc.done r } }
          | Strategy.thread =>
              { s with total_result := if !r then false else s.total_result,
                       workers := s.workers.set i { w with pc := Pc.done r } }
      | Pc.done _ => s
      | _ => threadsafe_count_file fs i w s

/-- The run of a schedule: the list of the workers that move, in order. -/
def run (strategy : Strategy) (fs : FileSystem) (sched : List Nat) (s : State) : State :=
  sched.foldl (fun acc i => step strategy fs i acc) s

/-- The state after the launch loop: one worker per file name, none started, the
mutex free, `total_result` true. -/
def launch (filenames : List Str) (freq_dict : Counter) (opened : List Str) : State :=
  { freq_dict := freq_dict, m := none,
    workers := filenames.map (fun f => { filename := f, pc := Pc.start }),
    total_result := true, opened := opened }

/-- Whether the lambda of the worker has ended. -/
def Worker.ended (w : Worker) : Bool :=
  match w.pc with
  | Pc.done _ => true
  | _ => false

/-- The value `res.get()` gives for the future of an ended worker. -/
def Worker.get (w : Worker) : Bool :=
  match w.pc with
  | Pc.done r => r
  | _ => true

/-- All workers have ended: every `get()` and every `join()` returns. -/
def finished (s : State) : Bool := s.workers.all Worker.ended

/-- The function `count_files_async` under the schedule `sched` of its tasks: the
return value, the shared table and the log, when the schedule runs every task to
its end (`none` when it is no complete execution). -/
def count_files_async (fs : FileSystem) (filenames : List Str) (sched : List Nat)
    (freq_dict : Counter) (opened : List Str) : Option (Bool × Counter × List Str) :=
  let s := run Strategy.async fs sched (launch filenames freq_dict opened)
  if finished s then
    some (s.workers.foldl (fun total_result res => res.get && total_result) true,
      s.freq_dict, s.opened)
  else none

/-- The function `count_files_thread` under the schedule `sched` of its threads. -/
def count_files_thread (fs : FileSystem) (filenames : List Str) (sched : List Nat)
    (freq_dict : Counter) (opened : List Str) : Option (Bool × Counter × List Str) :=
  let s := run Strategy.thread fs sched (launch filenames freq_dict opened)
  if finished s then some (s.total_result, s.freq_dict, s.opened) else none

/-- The updates of the shared table a worker has still to make. -/
def Pc.pending (fs : FileSystem) (filename : Str) : Pc → List (Str × Nat)
  | Pc.start =>
      match fs filename with
      | none => []
      | some input => count_words input []
  | Pc.loop rest => rest
  | Pc.locked e rest => e :: rest
  | Pc.written rest => rest
  | Pc.returned _ => []
  | Pc.done _ => []

/-- The updates of the shared table still to make, over all workers. -/
def pendingUpdates (fs : FileSystem) (s : State) : List (Str × Nat) :=
  s.workers.flatMap (fun w => w.pc.pending fs w.filename)

/-- A bound on the number of actions a worker has still to take. -/
def Pc.measure (fs : FileSystem) (filename : Str) : Pc → Nat
  | Pc.start => 3 * (Pc.pending fs filename Pc.start).length + 3
  | Pc.loop rest => 3 * rest.length + 2
  | Pc.locked _ rest => 3 * rest.length + 4
  | Pc.written rest => 3 * rest.length + 3
  | Pc.returned _ => 1
  | Pc.done _ => 0

/-- A bound on the number of actions still to take, over all workers. -/
def State.measure (fs : FileSystem) (s : State) : Nat :=
  (s.workers.map (fun w => w.pc.measure fs w.filename)).sum

/-- Whether the worker is between the construction and the destruction of its
`std::lock_guard`. -/
def Pc.inCritical : Pc → Bool
  | Pc.locked _ _ => true
  | Pc.written _ => true
  | _ => false

/-- What the program point of a worker says of its file: a worker in the merge
loop has opened it, and a returned value tells whether it opened. -/
def Pc.sound (fs : FileSystem) (filename : Str) : Pc → Prop
  | Pc.start => True
  | Pc.loop _ => (fs filename).isSome = true
  | Pc.locked _ _ => (fs filename).isSome = true
  | Pc.written _ => (fs filename).isSome = true
  | Pc.returned r => r = (fs filename).isSome
  | Pc.done r => r = (fs filename).isSome

/-- The invariant of the states of a run of a concurrent strategy on `filenames`. -/
structure Inv (strategy : Strategy) (fs : FileSystem) (filenames : List Str)
    (s : State) : Prop where
  names : s.workers.map Worker.filename = filenames
  lock : ∀ j w, s.workers[j]? = some w → (w.pc.inCritical = true ↔ s.m = some j)
  owner : ∀ j, s.m = some j → j < s.workers.length
  sound : ∀ w ∈ s.workers, w.pc.sound fs w.filename
  flag : strategy = Strategy.thread → s.total_result = s.workers.all Worker.get

/-! ## The top-K report -/

/-- A line written to a stream: by `print_topk` (`empty_result` for
`"Empty result"`, `rank count word` for `setw(4) << count << " " << word`) and by
`count_files_test`. The elapsed time is not modelled. -/
inductive Line
  | starting (test_name : Str)
  | failed
  | empty_result
  | rank (count : Nat) (word : Str)
  | elapsed
  deriving DecidableEq

/-- The type of `std::partial_sort(first, middle, last, comp)` on the vector of
map iterators, an iterator standing for the entry it points to: from `comp`,
`middle - first` and the vector, the rearranged vector. -/
abbrev PartialSort :=
  (Str × Nat → Str × Nat → Bool) → Nat → List (Str × Nat) → List (Str × Nat)

/-- The comparison of `print_topk`: `lhs->second > rhs->second`. -/
def comp (lhs rhs : Str × Nat) : Bool := decide (lhs.2 > rhs.2)

/-- The function `print_topk`, over the `std::partial_sort` of the standard
library: the lines written to `stream`. -/
def print_topk (partial_sort : PartialSort) (counter : Counter) (k : Nat) : List Line :=
  if counter.length = 0 then [Line.empty_result]
  else
    let k := min k counter.length
    let words := counter
    let words := partial_sort comp k words
    (words.take k).map (fun pair => Line.rank pair.2 pair.1)

/-- What the C++ standard promises of `std::partial_sort`: `ys` is a rearrangement
of `xs`, its first `middle` elements are in order and none of the others comes
before one of them. The order of equivalent elements is not specified. -/
def PartialSortPost (cmp : Str × Nat → Str × Nat → Bool) (middle : Nat)
    (xs ys : List (Str × Nat)) : Prop :=
  ys.Perm xs ∧
  (ys.take middle).Pairwise (fun a b => cmp b a = false) ∧
  ∀ a ∈ ys.take middle, ∀ b ∈ ys.drop middle, cmp b a = false

/-! ### The algorithm of GNU libstdc++ for `std::partial_sort`

One standard library `print_topk` is built with: `__heap_select` then
`__sort_heap` (`bits/stl_algo.h`, `bits/stl_heap.h`). The vector is a list,
read with a default entry out of range. -/

/-- The function `__push_heap`: the loop, `fuel` bounding its rounds. -/
def push_heap_loop (cmp : Str × Nat → Str × Nat → Bool) (value : Str × Nat) :
    Nat → List (Str × Nat) → Nat → Nat → List (Str × Nat)
  | 0, a, holeIndex, _ => a.set holeIndex value
  | fuel + 1, a, holeIndex, topIndex =>
      let parent := (holeIndex - 1) / 2
      if holeIndex > topIndex && cmp (a.getD parent ([], 0)) value then
        push_heap_loop cmp value fuel (a.set holeIndex (a.getD parent ([], 0))) parent topIndex
      else a.set holeIndex value

/-- The first loop of `__adjust_heap`: gives the vector, `holeIndex` and
`secondChild`. -/
def adjust_heap_loop (cmp : Str × Nat → Str × Nat → Bool) (len : Nat) :
    Nat → List (Str × Nat) → Nat → Nat → List (Str × Nat) × Nat × Nat
  | 0, a, holeIndex, secondChild => (a, holeIndex, secondChild)
  | fuel + 1, a, holeIndex, secondChild =>
      if secondChild < (len - 1) / 2 then
        let secondChild1 := 2 * (secondChild + 1)
        let secondChild2 :=
          if cmp (a.getD secondChild1 ([], 0)) (a.getD (secondChild1 - 1) ([], 0))
          then secondChild1 - 1 else secondChild1
        adjust_heap_loop cmp len fuel (a.set holeIndex (a.getD secondChild2 ([], 0)))
          secondChild2 secondChild2
      else (a, holeIndex, secondChild)

/-- The function `__adjust_heap`. The test `secondChild == (len - 2) / 2` is on
signed integers, so it fails when `len < 2`. -/
def adjust_heap (cmp : Str × Nat → Str × Nat → Bool) (a : List (Str × Nat))
    (holeIndex len : Nat) (value : Str × Nat) : List (Str × Nat) :=
  let topIndex := holeIndex
  match adjust_heap_loop cmp len len a holeIndex holeIndex with
  | (a1, holeIndex1, secondChild) =>
      if len % 2 = 0 ∧ 2 ≤ len ∧ secondChild = (len - 2) / 2 then
        let secondChild1 := 2 * (secondChild + 1)
        push_heap_loop cmp value len
          (a1.set holeIndex1 (a1.getD (secondChild1 - 1) ([], 0))) (secondChild1 - 1) topIndex
      else push_heap_loop cmp value len a1 holeIndex1 topIndex

/-- The function `__pop_heap(first, first + len, first + result, comp)`. -/
def pop_heap (cmp : Str × Nat → Str × Nat → Bool) (a : List (Str × Nat))
    (len result : Nat) : List (Str × Nat) :=
  let value := a.getD result ([], 0)
  adjust_heap cmp (a.set result (a.getD 0 ([], 0))) 0 len value

/-- The loop of `__make_heap`, from `parent` down to `0`. -/
def make_heap_loop (cmp : Str × Nat → Str × Nat → Bool) (len : Nat) :
    Nat → List (Str × Nat) → List (Str × Nat)
  | 0, a => adjust_heap cmp a 0 len (a.getD 0 ([], 0))
  | parent + 1, a =>
      make_heap_loop cmp len parent
        (adjust_heap cmp a (parent + 1) len (a.getD (parent + 1) ([], 0)))

/-- The function `__make_heap(first, first + len, comp)`. -/
def make_heap (cmp : Str × Nat → Str × Nat → Bool) (a : List (Str × Nat)) (len : Nat) :
    List (Str × Nat) :=
  if len < 2 then a else make_heap_loop cmp len ((len - 2) / 2) a

/-- The function `__heap_select(first, first + middle, last, comp)`. -/
def heap_select (cmp : Str × Nat → Str × Nat → Bool) (middle : Nat) (a : List (Str × Nat)) :
    List (Str × Nat) :=
  (List.range' middle (a.length - middle)).foldl
    (fun acc i =>
      if cmp (acc.getD i ([], 0)) (acc.getD 0 ([], 0)) then pop_heap cmp acc middle i else acc)
    (make_heap cmp a middle)

/-- The function `__sort_heap(first, first + last, comp)`. -/
def sort_heap (cmp : Str × Nat → Str × Nat → Bool) : Nat → List (Str × Nat) → List (Str × Nat)
  | 0, a => a
  | 1, a => a
  | last + 2, a => sort_heap cmp (last + 1) (pop_heap cmp a (last + 1) (last + 1))

/-- The function `std::__partial_sort` of libstdc++. -/
def gnu_partial_sort : PartialSort :=
  fun cmp middle a => sort_heap cmp middle (heap_select cmp middle a)

/-- The shared table `freq_dict` merged with the word counts of every file of the
list that opens: each such file is counted into a table of its own, which is
merged into the shared table. -/
def mergeOpened (fs : FileSystem) (filenames : List Str) (freq_dict : Counter) : Counter :=
  (filenames.filterMap fs).foldl (fun acc input => merge (count_words input []) acc) freq_dict

/-! ## The benchmark loop -/

/-- The constant `TOPK`. -/
def TOPK : Nat := 10

/-- The constant `TEST_COUNT`. -/
def TEST_COUNT : Nat := 5

/-- The loop of `count_files_test`, with `n` iterations left at iteration `i`:
`freq_dict.clear()`, then the call of the strategy, the loop being left when it
returns false. `count_files i` is the call of the strategy at iteration `i` (for a
concurrent strategy, under the schedule of that iteration). -/
def count_files_test_loop
    (count_files : Nat → Counter → List Str → Option (Bool × Counter × List Str)) :
    Nat → Nat → Counter → List Str → Option (Bool × Counter × List Str)
  | 0, _, freq_dict, opened => some (true, freq_dict, opened)
  | n + 1, i, _, opened =>
      match count_files i [] opened with
      | none => none
      | some (false, freq_dict1, opened1) => some (false, freq_dict1, opened1)
      | some (true, freq_dict1, opened1) =>
          count_files_test_loop count_files n (i + 1) freq_dict1 opened1

/-- The function `count_files_test`: the return value, the lines written to
`std::cout` and the log. -/
def count_files_test (partial_sort : PartialSort) (test_name : Str)
    (count_files : Nat → Counter → List Str → Option (Bool × Counter × List Str))
    (opened : List Str) : Option (Bool × List Line × List Str) :=
  match count_files_test_loop count_files TEST_COUNT 0 [] opened with
  | none => none
  | some (false, _, opened1) => some (false, [Line.starting test_name, Line.failed], opened1)
  | some (true, freq_dict, opened1) =>
      some (true,
        Line.starting test_name :: (print_topk partial_sort freq_dict TOPK ++ [Line.elapsed]),
        opened1)

/-- Every key present in the table has a count of `1` at least. -/
def Counter.positive (t : Counter) : Bool := t.all (fun e => decide (1 ≤ e.2))

/-- The tables of a list merged into `init`, one after the other. -/
def mergeAll (tables : List Counter) (init : Counter) : Counter :=
  tables.foldl (fun acc a => merge a acc) init

/-- The number of maximal runs, over the files of the list that open, whose
lowercased form is `w`. -/
def totalRuns (fs : FileSystem) (filenames : List Str) (w : Str) : Nat :=
  ((filenames.filterMap fs).map (fun input => runCount input w)).sum

/-- The files `count_files_sync` counts: those before the first file of the list
that does not open (all of them when every file opens). -/
def syncRead (fs : FileSystem) (filenames : List Str) : List Str :=
  filenames.takeWhile (fun f => (fs f).isSome)

/-- Bytes of an ASCII string literal. -/
def bytes (s : String) : Str := s.toList.map Char.toNat

/-- A file system with two readable files, `f1` and `f2`; no other name opens. -/
def exampleFs : FileSystem := fun f =>
  if f = bytes "f1" then some (bytes "b a")
  else if f = bytes "f2" then some (bytes "a c")
  else none

end TopkWords

namespace TopkWords

/-! ## The order on strings -/

theorem strLt_irrefl (a : Str) : strLt a a = false := by
  induction a with
  | nil => rfl
  | cons x xs ih => simp [strLt, ih]

theorem strLt_trans : ∀ (a b c : Str), strLt a b = true → strLt b c = true → strLt a c = true
  | [], [], _, h, _ => by simp [strLt] at h
  | [], _ :: _, [], _, h => by simp [strLt] at h
  | [], _ :: _, _ :: _, _, _ => by simp [strLt]
  | _ :: _, [], _, h, _ => by simp [strLt] at h
  | _ :: _, _ :: _, [], _, h => by simp [strLt] at h
  | x :: xs, y :: ys, z :: zs, h1, h2 => by
      simp only [strLt] at h1 h2 ⊢
      by_cases hxy : x < y
      · by_cases hyz : y < z
        · have : x < z := Nat.lt_trans hxy hyz
          simp [this]
        · by_cases hzy : z < y
          · simp [hyz, hzy] at h2
          · have : y = z := by omega
            subst this
            simp [hxy]
      · by_cases hyx : y < x
        · simp [hxy, hyx] at h1
        · have hxy2 : x = y := by omega
          subst hxy2
          by_cases hxz : x < z
          · simp [hxz]
          · by_cases hzx : z < x
            · simp [hxz, hzx] at h2
            · simp only [hxy, hyx, hxz, hzx, if_false] at h1 h2 ⊢
              exact strLt_trans xs ys zs h1 h2

theorem strLt_asymm (a b : Str) (h : strLt a b = true) : strLt b a = false := by
  cases hba : strLt b a with
  | false => rfl
  | true =>
      have := strLt_trans a b a h hba
      rw [strLt_irrefl] at this
      exact this.symm

theorem strLt_total : ∀ (a b : Str), strLt a b = false → strLt b a = false → a = b
  | [], [], _, _ => rfl
  | [], _ :: _, h, _ => by simp [strLt] at h
  | _ :: _, [], _, h => by simp [strLt] at h
  | x :: xs, y :: ys, h1, h2 => by
      simp only [strLt] at h1 h2
      by_cases hxy : x < y
      · simp [hxy] at h1
      · by_cases hyx : y < x
        · simp [hyx] at h2
        · have : x = y := by omega
          subst this
          simp only [hxy, if_false] at h1 h2
          rw [strLt_total xs ys h1 h2]

theorem strLt_ne (a b : Str) (h : strLt a b = true) : a ≠ b := by
  intro e
  subst e
  rw [strLt_irrefl] at h
  exact Bool.false_ne_true h

/-! ## Tables: lookups after an update, extensionality -/

theorem wf_cons (k : Str) (v : Nat) (rest : Counter) :
    Counter.wf ((k, v) :: rest) = true ↔
      v < SIZE_MOD ∧ (∀ e ∈ rest, strLt k e.1 = true) ∧ Counter.wf rest = true := by
  simp [Counter.wf, List.all_eq_true, and_assoc]

theorem find_none_of_above (rest : Counter) (w : Str)
    (h : ∀ e ∈ rest, w ≠ e.1) : Counter.find rest w = none := by
  induction rest with
  | nil => rfl
  | cons e rest ih =>
      obtain ⟨k, v⟩ := e
      have hk : k ≠ w := fun e1 => h (k, v) (List.mem_cons_self _ _) e1.symm
      simp only [Counter.find, hk, if_false]
      exact ih (fun e he => h e (List.mem_cons_of_mem _ he))

theorem mem_of_find (t : Counter) (w : Str) (v : Nat) (h : Counter.find t w = some v) :
    (w, v) ∈ t := by
  induction t with
  | nil => simp [Counter.find] at h
  | cons e rest ih =>
      obtain ⟨k, u⟩ := e
      simp only [Counter.find] at h
      by_cases hk : k = w
      · simp only [hk, if_true, Option.some.injEq] at h
        subst hk; subst h
        exact List.mem_cons_self _ _
      · simp only [hk, if_false] at h
        exact List.mem_cons_of_mem _ (ih h)

theorem find_of_mem (t : Counter) (hwf : Counter.wf t = true) (w : Str) (v : Nat)
    (h : (w, v) ∈ t) : Counter.find t w = some v := by
  induction t with
  | nil => simp at h
  | cons e rest ih =>
      obtain ⟨k, u⟩ := e
      rw [wf_cons] at hwf
      rcases List.mem_cons.1 h with h1 | h1
      · simp only [Prod.mk.injEq] at h1
        simp [Counter.find, h1.1, h1.2]
      · have hlt := hwf.2.1 (w, v) h1
        have hk : k ≠ w := strLt_ne k w hlt
        simp only [Counter.find, hk, if_false]
        exact ih hwf.2.2 h1

theorem wf_modify (w : Str) (f : Nat → Nat) (hf : ∀ v, f v < SIZE_MOD) (t : Counter)
    (hwf : Counter.wf t = true) : Counter.wf (Counter.modify w f t) = true := by
  induction t with
  | nil => simp [Counter.modify, Counter.wf, hf]
  | cons e rest ih =>
      obtain ⟨k, v⟩ := e
      have hwf0 := hwf
      rw [wf_cons] at hwf
      simp only [Counter.modify]
      by_cases h1 : strLt w k = true
      · simp only [h1, if_true]
        rw [wf_cons]
        refine ⟨hf 0, ?_, hwf0⟩
        intro e he
        rcases List.mem_cons.1 he with he | he
        · subst he; exact h1
        · exact strLt_trans w k e.1 h1 (hwf.2.1 e he)
      · rw [if_neg h1]
        by_cases h2 : strLt k w = true
        · simp only [h2, if_true]
          rw [wf_cons]
          refine ⟨hwf.1, ?_, ih hwf.2.2⟩
          intro e he
          by_cases hmem : e ∈ rest
          · exact hwf.2.1 e hmem
          · have key : ∀ (r : Counter) (e : Str × Nat), e ∈ Counter.modify w f r →
                e ∈ r ∨ e.1 = w := by
              intro r
              induction r with
              | nil =>
                  intro e he
                  simp only [Counter.modify, List.mem_singleton] at he
                  right; rw [he]
              | cons a r ihr =>
                  intro e he
                  obtain ⟨ka, va⟩ := a
                  simp only [Counter.modify] at he
                  by_cases c1 : strLt w ka = true
                  · simp only [c1, if_true] at he
                    rcases List.mem_cons.1 he with he | he
                    · right; rw [he]
                    · left; exact he
                  · rw [if_neg c1] at he
                    by_cases c2 : strLt ka w = true
                    · simp only [c2, if_true] at he
                      rcases List.mem_cons.1 he with he | he
                      · left; rw [he]; exact List.mem_cons_self _ _
                      · rcases ihr e he with h | h
                        · left; exact List.mem_cons_of_mem _ h
                        · right; exact h
                    · rw [if_neg c2] at he
                      have hkw : w = ka := strLt_total w ka (by simpa using c1) (by simpa using c2)
                      rcases List.mem_cons.1 he with he | he
                      · right; rw [he, hkw]
                      · left; exact List.mem_cons_of_mem _ he
            rcases key rest e he with h | h
            · exact absurd h hmem
            · rw [h]; exact h2
        · rw [if_neg h2, wf_cons]
          exact ⟨hf v, hwf.2.1, hwf.2.2⟩

theorem find_modify (w : Str) (f : Nat → Nat) (t : Counter) (hwf : Counter.wf t = true)
    (k : Str) :
    Counter.find (Counter.modify w f t) k =
      if k = w then some (f (Counter.cnt t w)) else Counter.find t k := by
  induction t with
  | nil =>
      by_cases hk : k = w
      · simp [Counter.modify, Counter.find, Counter.cnt, hk]
      · have : w ≠ k := fun e => hk e.symm
        simp [Counter.modify, Counter.find, hk, this]
  | cons e rest ih =>
      obtain ⟨a, v⟩ := e
      rw [wf_cons] at hwf
      simp only [Counter.modify]
      by_cases h1 : strLt w a = true
      · have hne : a ≠ w := fun e => strLt_ne w a h1 e.symm
        have hnone : Counter.find rest w = none :=
          find_none_of_above rest w (fun e he => strLt_ne w e.1
            (strLt_trans w a e.1 h1 (hwf.2.1 e he)))
        simp only [h1, if_true, Counter.find, Counter.cnt, hne, if_false, hnone,
          Option.getD_none]
        by_cases hk : k = w
        · simp [hk]
        · have : w ≠ k := fun e => hk e.symm
          simp [hk, this]
      · rw [if_neg h1]
        by_cases h2 : strLt a w = true
        · have hne : a ≠ w := strLt_ne a w h2
          simp only [h2, if_true, Counter.find, Counter.cnt, hne, if_false]
          by_cases hak : a = k
          · have hkw : k ≠ w := fun e => hne (hak.trans e)
            simp [hak, hkw]
          · simp only [hak, if_false]
            rw [ih hwf.2.2]
            rfl
        · rw [if_neg h2]
          have haw : w = a := strLt_total w a (by simpa using h1) (by simpa using h2)
          subst haw
          simp only [Counter.find, Counter.cnt, if_true, Option.getD_some]
          by_cases hk : k = w
          · simp [hk]
          · have : w ≠ k := fun e => hk e.symm
            simp [hk, this]

theorem counter_ext : ∀ (a b : Counter), Counter.wf a = true → Counter.wf b = true →
    (∀ k, Counter.find a k = Counter.find b k) → a = b
  | [], [], _, _, _ => rfl
  | [], (k, v) :: _, _, _, h => by
      have := h k
      simp [Counter.find] at this
  | (k, v) :: _, [], _, _, h => by
      have := h k
      simp [Counter.find] at this
  | (k1, v1) :: r1, (k2, v2) :: r2, ha, hb, h => by
      have ha0 := ha
      have hb0 := hb
      rw [wf_cons] at ha hb
      have n1 : Counter.find r1 k1 = none :=
        find_none_of_above r1 k1 (fun e he => strLt_ne k1 e.1 (ha.2.1 e he))
      have n2 : Counter.find r2 k2 = none :=
        find_none_of_above r2 k2 (fun e he => strLt_ne k2 e.1 (hb.2.1 e he))
      have hk : k1 = k2 := by
        by_contra hne
        have e1 := h k1
        have e2 := h k2
        have hne2 : ¬ k2 = k1 := fun e => hne e.symm
        simp only [Counter.find, if_true, hne, hne2, if_false] at e1 e2
        have m1 := mem_of_find r2 k1 v1 e1.symm
        have m2 := mem_of_find r1 k2 v2 e2
        have l1 := hb.2.1 _ m1
        have l2 := ha.2.1 _ m2
        have := strLt_asymm k2 k1 l1
        simp only [] at l2
        rw [l2] at this
        exact Bool.noConfusion this
      subst hk
      have hv : v1 = v2 := by
        have := h k1
        simpa [Counter.find] using this
      subst hv
      have hr : r1 = r2 := by
        apply counter_ext r1 r2 ha.2.2 hb.2.2
        intro k
        by_cases hkk : k1 = k
        · subst hkk; rw [n1, n2]
        · have := h k
          simpa [Counter.find, hkk] using this
      rw [hr]

/-! ## Lists of updates -/

theorem wf_addTo (w : Str) (c : Nat) (t : Counter) (hwf : Counter.wf t = true) :
    Counter.wf (Counter.addTo w c t) = true :=
  wf_modify w _ (fun _ => Nat.mod_lt _ (by decide)) t hwf

theorem find_addTo (w : Str) (c : Nat) (t : Counter) (hwf : Counter.wf t = true) (k : Str) :
    Counter.find (Counter.addTo w c t) k =
      if k = w then some ((Counter.cnt t w + c) % SIZE_MOD) else Counter.find t k :=
  find_modify w _ t hwf k

theorem incr_eq_addTo (w : Str) (t : Counter) : Counter.incr w t = Counter.addTo w 1 t := rfl

theorem wf_foldl_addTo (es : List (Str × Nat)) : ∀ (t : Counter), Counter.wf t = true →
    Counter.wf (es.foldl (fun acc e => Counter.addTo e.1 e.2 acc) t) = true := by
  induction es with
  | nil => intro t h; exact h
  | cons e es ih => intro t h; exact ih _ (wf_addTo e.1 e.2 t h)

theorem tally_of_not_touched (es : List (Str × Nat)) (k : Str) (h : touched es k = false) :
    tally es k = 0 := by
  induction es with
  | nil => rfl
  | cons e es ih =>
      simp only [touched, List.any_cons, Bool.or_eq_false_iff, decide_eq_false_iff_not] at h
      have h2 : tally es k = 0 := ih h.2
      simp only [tally] at h2 ⊢
      simp [List.filter_cons, h.1, h2]

theorem find_foldl_addTo (es : List (Str × Nat)) : ∀ (t : Counter), Counter.wf t = true →
    ∀ k, Counter.find (es.foldl (fun acc e => Counter.addTo e.1 e.2 acc) t) k =
      if touched es k = true then some ((Counter.cnt t k + tally es k) % SIZE_MOD)
      else Counter.find t k := by
  induction es with
  | nil => intro t _ k; simp [touched]
  | cons e es ih =>
      intro t hwf k
      have hwf1 := wf_addTo e.1 e.2 t hwf
      rw [List.foldl_cons, ih _ hwf1 k]
      have hfind := find_addTo e.1 e.2 t hwf k
      by_cases hk : e.1 = k
      · have hk2 : k = e.1 := hk.symm
        have htc : touched (e :: es) k = true := by simp [touched, hk]
        have hty : tally (e :: es) k = e.2 + tally es k := by
          simp [tally, List.filter_cons, hk]
        have hc : Counter.cnt (Counter.addTo e.1 e.2 t) k
            = (Counter.cnt t k + e.2) % SIZE_MOD := by
          simp only [Counter.cnt] at hfind ⊢
          rw [hfind]; simp [hk2]
        rw [htc, hty, hc, if_pos rfl]
        by_cases ht : touched es k = true
        · rw [if_pos ht, Nat.mod_add_mod, Nat.add_assoc]
        · have ht2 : touched es k = false := by simpa using ht
          rw [if_neg ht, hfind, if_pos hk2, tally_of_not_touched es k ht2]
          simp [hk2]
      · have hk2 : ¬ k = e.1 := fun h => hk h.symm
        have htc : touched (e :: es) k = touched es k := by simp [touched, hk]
        have hty : tally (e :: es) k = tally es k := by
          simp [tally, List.filter_cons, hk]
        have hc : Counter.cnt (Counter.addTo e.1 e.2 t) k = Counter.cnt t k := by
          simp only [Counter.cnt, hfind, if_neg hk2]
        rw [htc, hty, hc, hfind, if_neg hk2]

theorem touched_append (a b : List (Str × Nat)) (k : Str) :
    touched (a ++ b) k = (touched a k || touched b k) := by
  simp [touched, List.any_append]

theorem tally_append (a b : List (Str × Nat)) (k : Str) :
    tally (a ++ b) k = tally a k + tally b k := by
  simp [tally, List.filter_append, List.map_append, List.sum_append]

theorem touched_perm {a b : List (Str × Nat)} (h : a.Perm b) (k : Str) :
    touched a k = touched b k := by
  have hiff : touched a k = true ↔ touched b k = true := by
    simp only [touched, List.any_eq_true]
    constructor
    · rintro ⟨e, he, hk⟩; exact ⟨e, h.mem_iff.1 he, hk⟩
    · rintro ⟨e, he, hk⟩; exact ⟨e, h.mem_iff.2 he, hk⟩
  cases ha : touched a k <;> cases hb : touched b k <;> simp_all

theorem tally_perm {a b : List (Str × Nat)} (h : a.Perm b) (k : Str) :
    tally a k = tally b k := by
  simp only [tally]
  exact ((h.filter _).map _).sum_eq

/-- Updates can be applied in any order: the final table is the same. -/
theorem foldl_addTo_perm {a b : List (Str × Nat)} (h : a.Perm b) (t : Counter)
    (hwf : Counter.wf t = true) :
    a.foldl (fun acc e => Counter.addTo e.1 e.2 acc) t
      = b.foldl (fun acc e => Counter.addTo e.1 e.2 acc) t := by
  apply counter_ext _ _ (wf_foldl_addTo a t hwf) (wf_foldl_addTo b t hwf)
  intro k
  rw [find_foldl_addTo a t hwf k, find_foldl_addTo b t hwf k, touched_perm h k, tally_perm h k]

theorem touched_of_wf (t : Counter) (hwf : Counter.wf t = true) (k : Str) :
    touched t k = (Counter.find t k).isSome := by
  induction t with
  | nil => rfl
  | cons e rest ih =>
      obtain ⟨a, v⟩ := e
      rw [wf_cons] at hwf
      by_cases hk : a = k
      · simp [touched, Counter.find, hk]
      · have := ih hwf.2.2
        simp only [touched] at this
        simp [touched, Counter.find, hk, this]

theorem tally_of_wf (t : Counter) (hwf : Counter.wf t = true) (k : Str) :
    tally t k = Counter.cnt t k := by
  induction t with
  | nil => rfl
  | cons e rest ih =>
      obtain ⟨a, v⟩ := e
      rw [wf_cons] at hwf
      by_cases hk : a = k
      · have hnone : Counter.find rest k = none :=
          find_none_of_above rest k (fun e he => hk ▸ strLt_ne a e.1 (hwf.2.1 e he))
        have ht : touched rest k = false := by
          rw [touched_of_wf rest hwf.2.2 k, hnone]; rfl
        have h0 := tally_of_not_touched rest k ht
        simp only [tally] at h0
        simp [tally, Counter.cnt, Counter.find, List.filter_cons, hk, h0]
      · have := ih hwf.2.2
        simp only [tally, Counter.cnt] at this
        simp [tally, Counter.cnt, Counter.find, List.filter_cons, hk, this]

theorem cnt_lt_of_wf (t : Counter) (hwf : Counter.wf t = true) (k : Str) :
    Counter.cnt t k < SIZE_MOD := by
  induction t with
  | nil => simp [Counter.cnt, Counter.find, SIZE_MOD]
  | cons e rest ih =>
      obtain ⟨a, v⟩ := e
      rw [wf_cons] at hwf
      by_cases hk : a = k
      · simp [Counter.cnt, Counter.find, hk, hwf.1]
      · have := ih hwf.2.2
        simpa [Counter.cnt, Counter.find, hk] using this

theorem wf_merge (a b : Counter) (hb : Counter.wf b = true) : Counter.wf (merge a b) = true :=
  wf_foldl_addTo a b hb

/-- What `find` gives after a merge: the keys of both tables, the counts added
modulo `2 ^ 64`. -/
theorem find_merge (a b : Counter) (ha : Counter.wf a = true) (hb : Counter.wf b = true)
    (k : Str) :
    Counter.find (merge a b) k =
      match Counter.find a k with
      | none => Counter.find b k
      | some c => some ((Counter.cnt b k + c) % SIZE_MOD) := by
  simp only [merge]
  rw [find_foldl_addTo a b hb k, touched_of_wf a ha k, tally_of_wf a ha k]
  cases h : Counter.find a k with
  | none => simp
  | some c => simp [Counter.cnt, h]

/-- Merging a table built from a list of updates is applying the updates. -/
theorem merge_foldl_addTo (es : List (Str × Nat)) (b : Counter) (hb : Counter.wf b = true) :
    merge (es.foldl (fun acc e => Counter.addTo e.1 e.2 acc) []) b
      = es.foldl (fun acc e => Counter.addTo e.1 e.2 acc) b := by
  have hg : Counter.wf (es.foldl (fun acc e => Counter.addTo e.1 e.2 acc) []) = true :=
    wf_foldl_addTo es [] rfl
  apply counter_ext _ _ (wf_merge _ b hb) (wf_foldl_addTo es b hb)
  intro k
  rw [find_merge _ b hg hb k, find_foldl_addTo es [] rfl k, find_foldl_addTo es b hb k]
  by_cases ht : touched es k = true
  · simp [ht, Counter.cnt, Counter.find]
  · simp [ht, Counter.find]

/-! ## Tokenizer: the extraction loop reads the maximal runs -/

theorem maximalRuns_nil : maximalRuns [] = [] := by
  simp [maximalRuns, List.splitOnP_nil]

theorem maximalRuns_cons_space (c : Nat) (s : List Nat) (h : isspace c = true) :
    maximalRuns (c :: s) = maximalRuns s := by
  simp [maximalRuns, List.splitOnP_cons, h]

theorem maximalRuns_dropWhile (s : List Nat) :
    maximalRuns (s.dropWhile isspace) = maximalRuns s := by
  induction s with
  | nil => rfl
  | cons c s ih =>
      by_cases h : isspace c = true
      · rw [List.dropWhile_cons_of_pos h, ih, maximalRuns_cons_space c s h]
      · rw [List.dropWhile_cons_of_neg h]

theorem splitOnP_head (s : List Nat) :
    s.splitOnP isspace = s.takeWhile (fun c => !isspace c) ::
      (match s.dropWhile (fun c => !isspace c) with
       | [] => []
       | _ :: r => r.splitOnP isspace) := by
  induction s with
  | nil => simp [List.splitOnP_nil]
  | cons c s ih =>
      by_cases h : isspace c = true
      · simp [List.splitOnP_cons, h]
      · have h2 : isspace c = false := by simpa using h
        rw [List.splitOnP_cons, ih]
        simp [h2, List.modifyHead]

theorem dropWhile_not_space_head (s : List Nat) :
    ∀ d r, s.dropWhile (fun c => !isspace c) = d :: r → isspace d = true := by
  intro d r h
  have := List.head_dropWhile_not (fun c => !isspace c) s
  rw [h] at this
  simpa using this (by simp)

theorem maximalRuns_cons_word (c : Nat) (s : List Nat) (h : isspace c = false) :
    maximalRuns (c :: s) = (c :: s).takeWhile (fun c => !isspace c) ::
      maximalRuns ((c :: s).dropWhile (fun c => !isspace c)) := by
  have hd := dropWhile_not_space_head (c :: s)
  rw [maximalRuns, splitOnP_head]
  have hne : ((c :: s).takeWhile (fun c => !isspace c)).isEmpty = false := by
    simp [List.takeWhile_cons, h]
  rw [List.filter_cons, hne]
  simp only [Bool.not_false, if_true, List.cons.injEq, true_and]
  cases hdw : (c :: s).dropWhile (fun c => !isspace c) with
  | nil => simp [maximalRuns_nil]
  | cons d r =>
      rw [maximalRuns_cons_space d r (hd d r hdw)]
      rfl

theorem takeWhile_run (r s : List Nat) (hns : ∀ c ∈ r, isspace c = false)
    (hs : ∀ c s1, s = c :: s1 → isspace c = true) :
    (r ++ s).takeWhile (fun c => !isspace c) = r ∧
    (r ++ s).dropWhile (fun c => !isspace c) = s := by
  induction r with
  | nil =>
      cases s with
      | nil => exact ⟨rfl, rfl⟩
      | cons c s1 =>
          have := hs c s1 rfl
          simp [List.takeWhile_cons, List.dropWhile_cons, this]
  | cons a r ih =>
      have ha := hns a (List.mem_cons_self _ _)
      have := ih (fun c hc => hns c (List.mem_cons_of_mem _ hc))
      simp [List.takeWhile_cons, List.dropWhile_cons, ha, this.1, this.2]

/-- The maximal runs, run by run: a non-empty piece without whitespace that ends
the stream or is followed by whitespace is the first run of the stream. With
`maximalRuns_nil` and `maximalRuns_cons_space` this determines `maximalRuns`. -/
theorem maximalRuns_run (r s : List Nat) (hr : r ≠ []) (hns : ∀ c ∈ r, isspace c = false)
    (hs : ∀ c s1, s = c :: s1 → isspace c = true) :
    maximalRuns (r ++ s) = r :: maximalRuns s := by
  obtain ⟨a, r1, rfl⟩ := List.exists_cons_of_ne_nil hr
  have ha := hns a (List.mem_cons_self _ _)
  have h := takeWhile_run (a :: r1) s hns hs
  rw [List.cons_append] at h ⊢
  rw [maximalRuns_cons_word a (r1 ++ s) ha, h.1, h.2]

theorem extract_none (s : List Nat) (h : extract s = none) : maximalRuns s = [] := by
  simp only [extract] at h
  by_cases h1 : s.dropWhile isspace = []
  · rw [← maximalRuns_dropWhile, h1, maximalRuns_nil]
  · simp [h1] at h

theorem extract_some (s : List Nat) (tok : Str) (rest : List Nat)
    (h : extract s = some (tok, rest)) :
    maximalRuns s = tok :: maximalRuns rest ∧ rest.length < s.length := by
  simp only [extract] at h
  by_cases h1 : s.dropWhile isspace = []
  · simp [h1] at h
  · rw [if_neg h1] at h
    simp only [Option.some.injEq, Prod.mk.injEq] at h
    obtain ⟨c, r, hcr⟩ := List.exists_cons_of_ne_nil h1
    have hc : isspace c = false := by
      have := List.head_dropWhile_not isspace s
      rw [hcr] at this
      simpa using this (by simp)
    constructor
    · rw [← maximalRuns_dropWhile, hcr, maximalRuns_cons_word c r hc, ← hcr, h.1, h.2]
    · rw [← h.2, hcr, List.dropWhile_cons_of_pos (by simp [hc])]
      have l1 : (r.dropWhile (fun c => !isspace c)).length ≤ r.length :=
        (List.dropWhile_sublist _).length_le
      have l2 : (s.dropWhile isspace).length ≤ s.length :=
        (List.dropWhile_sublist _).length_le
      rw [hcr, List.length_cons] at l2
      omega

theorem tokens_loop_eq : ∀ (fuel : Nat) (s : List Nat), s.length ≤ fuel →
    tokens_loop fuel s = maximalRuns s
  | 0, s, h => by
      have : s = [] := List.length_eq_zero.1 (Nat.le_zero.1 h)
      subst this
      simp [tokens_loop, maximalRuns_nil]
  | fuel + 1, s, h => by
      simp only [tokens_loop]
      cases he : extract s with
      | none => simp [extract_none s he]
      | some p =>
          obtain ⟨tok, rest⟩ := p
          have := extract_some s tok rest he
          simp only []
          rw [this.1, tokens_loop_eq fuel rest (by omega)]

theorem count_words_loop_eq : ∀ (fuel : Nat) (s : List Nat) (c : Counter),
    count_words_loop fuel s c
      = (tokens_loop fuel s).foldl (fun acc tok => Counter.incr (tolower tok) acc) c
  | 0, _, _ => rfl
  | fuel + 1, s, c => by
      simp only [count_words_loop, tokens_loop]
      cases he : extract s with
      | none => rfl
      | some p =>
          obtain ⟨tok, rest⟩ := p
          simp only [List.foldl_cons]
          exact count_words_loop_eq fuel rest _

/-- More fuel than the length of the stream changes nothing: the loop has ended. -/
theorem count_words_loop_fuel (fuel : Nat) (s : List Nat) (c : Counter)
    (h : s.length ≤ fuel) : count_words_loop fuel s c = count_words s c := by
  rw [count_words, count_words_loop_eq, count_words_loop_eq, tokens_loop_eq fuel s h,
    tokens_loop_eq s.length s (Nat.le_refl _)]

/-- The function `count_words` applies one `(word, 1)` update per maximal run. -/
theorem count_words_eq (s : List Nat) (c : Counter) :
    count_words s c = (wordUpdates s).foldl (fun acc e => Counter.addTo e.1 e.2 acc) c := by
  rw [count_words, count_words_loop_eq, tokens_loop_eq s.length s (Nat.le_refl _),
    wordUpdates, List.foldl_map]
  rfl

theorem wf_count_words (s : List Nat) (c : Counter) (h : Counter.wf c = true) :
    Counter.wf (count_words s c) = true := by
  rw [count_words_eq]; exact wf_foldl_addTo _ c h

theorem touched_wordUpdates (s : List Nat) (w : Str) :
    touched (wordUpdates s) w = decide (0 < runCount s w) := by
  simp only [touched, wordUpdates, runCount, List.any_map]
  rw [Bool.eq_iff_iff]
  simp only [List.any_eq_true, Function.comp, decide_eq_true_eq, List.count_pos_iff,
    List.mem_map]
  constructor
  · rintro ⟨x, ⟨a, ha, rfl⟩, hx⟩; exact ⟨a, ha, hx⟩
  · rintro ⟨a, ha, hx⟩; exact ⟨_, ⟨a, ha, rfl⟩, hx⟩

theorem tally_wordUpdates (s : List Nat) (w : Str) :
    tally (wordUpdates s) w = runCount s w := by
  simp only [tally, wordUpdates, runCount]
  induction maximalRuns s with
  | nil => rfl
  | cons r rs ih =>
      by_cases h : tolower r = w
      · simp [List.filter_cons, h, ih]; omega
      · simp [List.filter_cons, h, ih, List.count_cons]

/-! ## The concurrent strategies: invariants of a run -/

theorem split_of_getElem? {α : Type} : ∀ (l : List α) (i : Nat) (w : α), l[i]? = some w →
    ∃ L R, l = L ++ w :: R ∧ L.length = i ∧ ∀ w1, l.set i w1 = L ++ w1 :: R
  | [], i, w, h => by simp at h
  | a :: l, 0, w, h => by
      simp only [List.getElem?_cons_zero, Option.some.injEq] at h
      subst h
      exact ⟨[], l, rfl, rfl, fun w1 => rfl⟩
  | a :: l, i + 1, w, h => by
      simp only [List.getElem?_cons_succ] at h
      obtain ⟨L, R, h1, h2, h3⟩ := split_of_getElem? l i w h
      refine ⟨a :: L, R, by rw [h1]; rfl, by simp [h2], fun w1 => ?_⟩
      simp [List.set, h3 w1]

theorem foldl_addTo_middle (A B : List (Str × Nat)) (e : Str × Nat) (t : Counter)
    (hwf : Counter.wf t = true) :
    (A ++ e :: B).foldl (fun acc e => Counter.addTo e.1 e.2 acc) t
      = (A ++ B).foldl (fun acc e => Counter.addTo e.1 e.2 acc) (Counter.addTo e.1 e.2 t) := by
  rw [foldl_addTo_perm (List.perm_middle : (A ++ e :: B).Perm (e :: (A ++ B))) t hwf]
  rfl

theorem step_target (strategy : Strategy) (fs : FileSystem) (i : Nat) (s : State)
    (hwf : Counter.wf s.freq_dict = true) :
    Counter.wf (step strategy fs i s).freq_dict = true ∧
    (pendingUpdates fs (step strategy fs i s)).foldl (fun acc e => Counter.addTo e.1 e.2 acc)
        (step strategy fs i s).freq_dict
      = (pendingUpdates fs s).foldl (fun acc e => Counter.addTo e.1 e.2 acc) s.freq_dict := by
  unfold step threadsafe_count_file
  cases hw : s.workers[i]? with
  | none => exact ⟨hwf, rfl⟩
  | some w =>
      obtain ⟨L, R, hL, _, hset⟩ := split_of_getElem? s.workers i w hw
      obtain ⟨filename, pc⟩ := w
      cases pc with
      | start =>
          cases hfs : fs filename with
          | none => (simp only [count_file, hfs, pendingUpdates, hset]; simp [hL, Pc.pending, hfs, hwf])
          | some input => (simp only [count_file, hfs, pendingUpdates, hset]; simp [hL, Pc.pending, hfs, hwf])
      | loop rest =>
          cases rest with
          | nil => (simp only [pendingUpdates, hset]; simp [hL, Pc.pending, hwf])
          | cons e rest =>
              cases hm : s.m with
              | none => (simp only [pendingUpdates, hset]; simp [hL, Pc.pending, hwf])
              | some j => simp [hwf]
      | locked e rest =>
          refine ⟨wf_addTo e.1 e.2 _ hwf, ?_⟩
          simp only [pendingUpdates, hset]
          simp only [hL, List.flatMap_append, List.flatMap_cons, Pc.pending]
          rw [List.cons_append, foldl_addTo_middle _ _ e _ hwf]
      | written rest => (simp only [pendingUpdates, hset]; simp [hL, Pc.pending, hwf])
      | returned r =>
          cases strategy with
          | async => (simp only [pendingUpdates, hset]; simp [hL, Pc.pending, hwf])
          | thread => (simp only [pendingUpdates, hset]; simp [hL, Pc.pending, hwf])
      | done r => simp [hwf]
theorem inv_launch (strategy : Strategy) (fs : FileSystem) (filenames : List Str)
    (freq_dict : Counter) (opened : List Str) :
    Inv strategy fs filenames (launch filenames freq_dict opened) := by
  refine ⟨?_, ?_, ?_, ?_, ?_⟩
  · simp [launch, Function.comp_def]
  · intro j w hw
    have hmem := List.getElem?_mem hw
    simp only [launch, List.mem_map] at hmem
    obtain ⟨f, _, rfl⟩ := hmem
    simp [launch, Pc.inCritical]
  · intro j h; simp [launch] at h
  · intro w hw
    simp only [launch, List.mem_map] at hw
    obtain ⟨f, _, rfl⟩ := hw
    trivial
  · intro _
    simp [launch, List.all_map, Function.comp_def, Worker.get]

/-- The invariant after worker `i` moves from `pc` to `pc1`, the mutex and the flag
changing as the action says. -/
theorem inv_update {strategy : Strategy} {fs : FileSystem} {filenames : List Str}
    {s s1 : State} (h : Inv strategy fs filenames s) (i : Nat) (f : Str) (pc pc1 : Pc)
    (hw : s.workers[i]? = some ⟨f, pc⟩)
    (hworkers : s1.workers = s.workers.set i ⟨f, pc1⟩)
    (hsound : pc1.sound fs f)
    (hcrit : pc1.inCritical = true ↔ s1.m = some i)
    (hothers : ∀ j, j ≠ i → (s.m = some j ↔ s1.m = some j))
    (hget : Worker.get ⟨f, pc⟩ = true)
    (hflag : strategy = Strategy.thread →
      s1.total_result = (s.total_result && Worker.get ⟨f, pc1⟩)) :
    Inv strategy fs filenames s1 := by
  obtain ⟨L, R, hL, hlen, hset⟩ := split_of_getElem? s.workers i _ hw
  have hw1 : s1.workers = L ++ ⟨f, pc1⟩ :: R := by rw [hworkers, hset]
  refine ⟨?_, ?_, ?_, ?_, ?_⟩
  · rw [← h.names, hw1, hL]; simp
  · intro j w hj
    rw [hworkers, List.getElem?_set] at hj
    by_cases hij : i = j
    · subst hij
      have hlt : i < s.workers.length := by
        rw [hL, List.length_append, List.length_cons]; omega
      simp only [if_true, hlt, Option.some.injEq] at hj
      subst hj
      exact hcrit
    · rw [if_neg hij] at hj
      rw [h.lock j w hj]
      exact hothers j (fun e => hij e.symm)
  · intro j hj
    rw [hworkers, List.length_set]
    by_cases hij : j = i
    · subst hij
      rw [hL, List.length_append, List.length_cons]; omega
    · exact h.owner j ((hothers j hij).2 hj)
  · intro w hmem
    rw [hw1] at hmem
    rcases List.mem_append.1 hmem with hm | hm
    · exact h.sound w (by rw [hL]; exact List.mem_append_left _ hm)
    · rcases List.mem_cons.1 hm with hm | hm
      · subst hm; exact hsound
      · exact h.sound w (by rw [hL]; exact List.mem_append_right _ (List.mem_cons_of_mem _ hm))
  · intro hs
    have h0 := h.flag hs
    rw [hflag hs, h0, hw1, hL]
    simp only [List.all_append, List.all_cons, hget, Bool.true_and]
    cases List.all L Worker.get <;> cases List.all R Worker.get <;>
      cases Worker.get ⟨f, pc1⟩ <;> rfl


theorem step_inv {strategy : Strategy} {fs : FileSystem} {filenames : List Str} {s : State}
    (h : Inv strategy fs filenames s) (i : Nat) :
    Inv strategy fs filenames (step strategy fs i s) := by
  unfold step threadsafe_count_file
  cases hw : s.workers[i]? with
  | none => exact h
  | some w =>
      obtain ⟨f, pc⟩ := w
      have hlock := h.lock i _ hw
      cases pc with
      | start =>
          cases hfs : fs f with
          | none =>
              simp only [count_file, hfs]
              exact inv_update h i f Pc.start (Pc.returned false) hw rfl
                (by simp [Pc.sound, hfs]) (by simpa [Pc.inCritical] using hlock)
                (fun j _ => Iff.rfl) rfl (fun _ => by simp [Worker.get])
          | some input =>
              simp only [count_file, hfs]
              exact inv_update h i f Pc.start (Pc.loop _) hw rfl
                (by simp [Pc.sound, hfs]) (by simpa [Pc.inCritical] using hlock)
                (fun j _ => Iff.rfl) rfl (fun _ => by simp [Worker.get])
      | loop rest =>
          have hs := h.sound _ (List.getElem?_mem hw)
          cases rest with
          | nil =>
              exact inv_update h i f (Pc.loop []) (Pc.returned true) hw rfl
                (by simpa [Pc.sound] using hs.symm) (by simpa [Pc.inCritical] using hlock)
                (fun j _ => Iff.rfl) rfl (fun _ => by simp [Worker.get])
          | cons e rest =>
              cases hm : s.m with
              | none =>
                  exact inv_update h i f (Pc.loop (e :: rest)) (Pc.locked e rest) hw rfl
                    (by simpa [Pc.sound] using hs) (by simp [Pc.inCritical])
                    (fun j hj => by simp [hm]; exact fun e => hj e.symm) rfl
                    (fun _ => by simp [Worker.get])
              | some j => exact h
      | locked e rest =>
          have hs := h.sound _ (List.getElem?_mem hw)
          exact inv_update h i f (Pc.locked e rest) (Pc.written rest) hw rfl
            (by simpa [Pc.sound] using hs) (by simpa [Pc.inCritical] using hlock)
            (fun j _ => Iff.rfl) rfl (fun _ => by simp [Worker.get])
      | written rest =>
          have hs := h.sound _ (List.getElem?_mem hw)
          have hm : s.m = some i := hlock.1 rfl
          exact inv_update h i f (Pc.written rest) (Pc.loop rest) hw rfl
            (by simpa [Pc.sound] using hs) (by simp [Pc.inCritical])
            (fun j hj => by simp [hm]; exact fun e => hj e.symm) rfl
            (fun _ => by simp [Worker.get])
      | returned r =>
          have hs := h.sound _ (List.getElem?_mem hw)
          cases strategy with
          | async =>
              exact inv_update h i f (Pc.returned r) (Pc.done r) hw rfl
                (by simpa [Pc.sound] using hs) (by simpa [Pc.inCritical] using hlock)
                (fun j _ => Iff.rfl) rfl (fun hc => by cases hc)
          | thread =>
              exact inv_update h i f (Pc.returned r) (Pc.done r) hw rfl
                (by simpa [Pc.sound] using hs) (by simpa [Pc.inCritical] using hlock)
                (fun j _ => Iff.rfl) rfl (fun _ => by cases r <;> simp [Worker.get])
      | done r => exact h

theorem run_inv {strategy : Strategy} {fs : FileSystem} {filenames : List Str}
    (sched : List Nat) : ∀ {s : State}, Inv strategy fs filenames s →
    Inv strategy fs filenames (run strategy fs sched s) := by
  induction sched with
  | nil => intro s h; exact h
  | cons i sched ih => intro s h; exact ih (step_inv h i)

theorem run_target (strategy : Strategy) (fs : FileSystem) (sched : List Nat) :
    ∀ (s : State), Counter.wf s.freq_dict = true →
    Counter.wf (run strategy fs sched s).freq_dict = true ∧
    (pendingUpdates fs (run strategy fs sched s)).foldl
        (fun acc e => Counter.addTo e.1 e.2 acc) (run strategy fs sched s).freq_dict
      = (pendingUpdates fs s).foldl (fun acc e => Counter.addTo e.1 e.2 acc) s.freq_dict := by
  induction sched with
  | nil => intro s h; exact ⟨h, rfl⟩
  | cons i sched ih =>
      intro s h
      have h1 := step_target strategy fs i s h
      have h2 := ih (step strategy fs i s) h1.1
      exact ⟨h2.1, h2.2.trans h1.2⟩

theorem run_append (strategy : Strategy) (fs : FileSystem) (a b : List Nat) (s : State) :
    run strategy fs (a ++ b) s = run strategy fs b (run strategy fs a s) := by
  simp [run, List.foldl_append]

/-- An action of a worker that has not ended and does not wait for the mutex brings
the run nearer to its end. -/
theorem step_progress (strategy : Strategy) (fs : FileSystem) (i : Nat) (s : State)
    (w : Worker) (hw : s.workers[i]? = some w) (hended : w.ended = false)
    (hfree : w.pc.inCritical = true ∨ s.m = none) :
    State.measure fs (step strategy fs i s) < State.measure fs s := by
  obtain ⟨L, R, hL, _, hset⟩ := split_of_getElem? s.workers i w hw
  unfold step threadsafe_count_file
  rw [hw]
  obtain ⟨f, pc⟩ := w
  cases pc with
  | start =>
      cases hfs : fs f with
      | none =>
          simp only [count_file, hfs, State.measure, hset]
          simp [hL, Pc.measure]
      | some input =>
          simp only [count_file, hfs, State.measure, hset]
          simp [hL, Pc.measure, Pc.pending, hfs]
  | loop rest =>
      cases rest with
      | nil =>
          simp only [State.measure, hset]
          simp [hL, Pc.measure]
      | cons e rest =>
          have hm : s.m = none := by simpa [Pc.inCritical] using hfree
          simp only [hm, State.measure, hset]
          simp [hL, Pc.measure]
          omega
  | locked e rest =>
      simp only [State.measure, hset]
      simp [hL, Pc.measure]
  | written rest =>
      simp only [State.measure, hset]
      simp [hL, Pc.measure]
  | returned r =>
      cases strategy with
      | async =>
          simp only [State.measure, hset]
          simp [hL, Pc.measure]
      | thread =>
          simp only [State.measure, hset]
          simp [hL, Pc.measure]
  | done r => simp [Worker.ended] at hended

/-- No deadlock, and termination: every state of a run can be run to the end. -/
theorem exists_finishing {strategy : Strategy} {fs : FileSystem} {filenames : List Str} :
    ∀ (n : Nat) (s : State), State.measure fs s ≤ n → Inv strategy fs filenames s →
    ∃ ext, finished (run strategy fs ext s) = true := by
  intro n
  induction n with
  | zero =>
      intro s hn h
      by_cases hf : finished s = true
      · exact ⟨[], hf⟩
      · exfalso
        simp only [finished, List.all_eq_true, not_forall] at hf
        obtain ⟨w, hmem, hne⟩ := hf
        obtain ⟨i, hi⟩ := List.mem_iff_getElem?.1 hmem
        have hended : w.ended = false := by simpa using hne
        cases hm : s.m with
        | none =>
            have := step_progress strategy fs i s w hi hended (Or.inr hm)
            omega
        | some j =>
            have hj := h.owner j hm
            have hj2 : s.workers[j]? = some s.workers[j] := List.getElem?_eq_getElem hj
            have hc := (h.lock j _ hj2).2 hm
            have he : (s.workers[j]).ended = false := by
              cases hpc : (s.workers[j]).pc <;> simp [Worker.ended, hpc, Pc.inCritical] at hc ⊢
            have := step_progress strategy fs j s _ hj2 he (Or.inl hc)
            omega
  | succ n ih =>
      intro s hn h
      by_cases hf : finished s = true
      · exact ⟨[], hf⟩
      · simp only [finished, List.all_eq_true, not_forall] at hf
        obtain ⟨w, hmem, hne⟩ := hf
        obtain ⟨i, hi⟩ := List.mem_iff_getElem?.1 hmem
        have hended : w.ended = false := by simpa using hne
        have key : ∃ j, State.measure fs (step strategy fs j s) < State.measure fs s := by
          cases hm : s.m with
          | none => exact ⟨i, step_progress strategy fs i s w hi hended (Or.inr hm)⟩
          | some j =>
              have hj := h.owner j hm
              have hj2 : s.workers[j]? = some s.workers[j] := List.getElem?_eq_getElem hj
              have hc := (h.lock j _ hj2).2 hm
              have he : (s.workers[j]).ended = false := by
                cases hpc : (s.workers[j]).pc <;>
                  simp [Worker.ended, hpc, Pc.inCritical] at hc ⊢
              exact ⟨j, step_progress strategy fs j s _ hj2 he (Or.inl hc)⟩
        obtain ⟨j, hj⟩ := key
        obtain ⟨ext, hext⟩ := ih (step strategy fs j s) (by omega) (step_inv h j)
        exact ⟨j :: ext, hext⟩

/-! ## The end of a run -/

theorem finished_pending (fs : FileSystem) (s : State) (h : finished s = true) :
    pendingUpdates fs s = [] := by
  simp only [finished, List.all_eq_true] at h
  simp only [pendingUpdates, List.flatMap_eq_nil_iff]
  intro w hw
  have := h w hw
  cases hpc : w.pc <;> simp [Worker.ended, hpc] at this ⊢
  rfl

theorem pending_launch (fs : FileSystem) (filenames : List Str) (t : Counter)
    (opened : List Str) :
    (pendingUpdates fs (launch filenames t opened)).foldl
        (fun acc e => Counter.addTo e.1 e.2 acc) t
      = mergeOpened fs filenames t := by
  simp only [pendingUpdates, launch, mergeOpened]
  induction filenames generalizing t with
  | nil => rfl
  | cons f fl ih =>
      simp only [List.map_cons, List.flatMap_cons, List.foldl_append, Pc.pending]
      cases hfs : fs f with
      | none =>
          simp only [List.foldl_nil, List.filterMap_cons, hfs]
          exact ih t
      | some input =>
          simp only [List.filterMap_cons, hfs, List.foldl_cons]
          exact ih _

theorem all_map_eq {α β : Type} (f : α → β) (p : β → Bool) (l : List α) :
    (l.map f).all p = l.all (fun x => p (f x)) := by
  induction l with
  | nil => rfl
  | cons a l ih => simp [ih]

theorem all_congr_mem {α : Type} (p q : α → Bool) (l : List α)
    (h : ∀ x ∈ l, p x = q x) : l.all p = l.all q := by
  induction l with
  | nil => rfl
  | cons a l ih =>
      rw [List.all_cons, List.all_cons, h a (List.mem_cons_self _ _),
        ih (fun x hx => h x (List.mem_cons_of_mem _ hx))]

theorem finished_get {strategy : Strategy} {fs : FileSystem} {filenames : List Str}
    {s : State} (h : Inv strategy fs filenames s) (hfin : finished s = true) :
    s.workers.all Worker.get = filenames.all (fun f => (fs f).isSome) := by
  rw [← h.names, all_map_eq]
  apply all_congr_mem
  intro w hw
  simp only [finished, List.all_eq_true] at hfin
  have he := hfin w hw
  have hs := h.sound w hw
  cases hpc : w.pc <;> simp [Worker.ended, hpc] at he
  simp only [Worker.get, hpc, Function.comp]
  rw [hpc] at hs
  exact hs

theorem foldl_get_eq_all (ws : List Worker) :
    ws.foldl (fun total_result res => res.get && total_result) true = ws.all Worker.get := by
  have key : ∀ (b : Bool), ws.foldl (fun total_result res => res.get && total_result) b
      = (b && ws.all Worker.get) := by
    induction ws with
    | nil => intro b; simp
    | cons w ws ih =>
        intro b
        rw [List.foldl_cons, ih, List.all_cons]
        cases w.get <;> cases b <;> simp
  simpa using key true

/-- The end state of every complete run of a concurrent strategy. -/
theorem concurrent_result (strategy : Strategy) (fs : FileSystem) (filenames : List Str)
    (sched : List Nat) (t : Counter) (opened : List Str) (hwf : Counter.wf t = true)
    (hfin : finished (run strategy fs sched (launch filenames t opened)) = true) :
    (run strategy fs sched (launch filenames t opened)).freq_dict = mergeOpened fs filenames t ∧
    (run strategy fs sched (launch filenames t opened)).workers.all Worker.get
      = filenames.all (fun f => (fs f).isSome) ∧
    (strategy = Strategy.thread →
      (run strategy fs sched (launch filenames t opened)).total_result
        = filenames.all (fun f => (fs f).isSome)) := by
  have hinv : Inv strategy fs filenames (run strategy fs sched (launch filenames t opened)) :=
    run_inv sched (inv_launch strategy fs filenames t opened)
  have ht := (run_target strategy fs sched (launch filenames t opened) hwf).2
  rw [finished_pending fs _ hfin] at ht
  refine ⟨?_, finished_get hinv hfin, fun hs => ?_⟩
  · rw [← pending_launch fs filenames t opened]
    exact ht
  · rw [hinv.flag hs, finished_get hinv hfin]

theorem async_result (fs : FileSystem) (filenames : List Str) (sched : List Nat)
    (t : Counter) (opened : List Str) (hwf : Counter.wf t = true)
    (r : Bool × Counter × List Str)
    (h : count_files_async fs filenames sched t opened = some r) :
    r.1 = filenames.all (fun f => (fs f).isSome) ∧ r.2.1 = mergeOpened fs filenames t := by
  simp only [count_files_async] at h
  by_cases hfin : finished (run Strategy.async fs sched (launch filenames t opened)) = true
  · rw [if_pos hfin] at h
    have := concurrent_result Strategy.async fs filenames sched t opened hwf hfin
    simp only [Option.some.injEq] at h
    subst h
    exact ⟨by rw [foldl_get_eq_all]; exact this.2.1, this.1⟩
  · rw [if_neg hfin] at h
    cases h

theorem thread_result (fs : FileSystem) (filenames : List Str) (sched : List Nat)
    (t : Counter) (opened : List Str) (hwf : Counter.wf t = true)
    (r : Bool × Counter × List Str)
    (h : count_files_thread fs filenames sched t opened = some r) :
    r.1 = filenames.all (fun f => (fs f).isSome) ∧ r.2.1 = mergeOpened fs filenames t := by
  simp only [count_files_thread] at h
  by_cases hfin : finished (run Strategy.thread fs sched (launch filenames t opened)) = true
  · rw [if_pos hfin] at h
    have := concurrent_result Strategy.thread fs filenames sched t opened hwf hfin
    simp only [Option.some.injEq] at h
    subst h
    exact ⟨this.2.2 rfl, this.1⟩
  · rw [if_neg hfin] at h
    cases h

/-- Every prefix of a run extends to a complete run: the tasks are all awaited. -/
theorem async_completes (fs : FileSystem) (filenames : List Str) (sched : List Nat)
    (t : Counter) (opened : List Str) :
    ∃ ext, (count_files_async fs filenames (sched ++ ext) t opened).isSome = true := by
  have hinv : Inv Strategy.async fs filenames
      (run Strategy.async fs sched (launch filenames t opened)) :=
    run_inv sched (inv_launch Strategy.async fs filenames t opened)
  obtain ⟨ext, hext⟩ := exists_finishing _ _ (Nat.le_refl _) hinv
  refine ⟨ext, ?_⟩
  simp only [count_files_async, run_append, hext, if_true, Option.isSome_some]

/-- Every prefix of a run extends to a complete run: the threads are all joined. -/
theorem thread_completes (fs : FileSystem) (filenames : List Str) (sched : List Nat)
    (t : Counter) (opened : List Str) :
    ∃ ext, (count_files_thread fs filenames (sched ++ ext) t opened).isSome = true := by
  have hinv : Inv Strategy.thread fs filenames
      (run Strategy.thread fs sched (launch filenames t opened)) :=
    run_inv sched (inv_launch Strategy.thread fs filenames t opened)
  obtain ⟨ext, hext⟩ := exists_finishing _ _ (Nat.le_refl _) hinv
  refine ⟨ext, ?_⟩
  simp only [count_files_thread, run_append, hext, if_true, Option.isSome_some]

/-! ## The sequential strategy -/

/-- Counting a stream into a table is counting it into an empty table and merging. -/
theorem count_words_merge (input : List Nat) (t : Counter) (hwf : Counter.wf t = true) :
    count_words input t = merge (count_words input []) t := by
  rw [count_words_eq input t, count_words_eq input [], merge_foldl_addTo _ t hwf]

theorem wf_mergeOpened (fs : FileSystem) (filenames : List Str) (t : Counter)
    (hwf : Counter.wf t = true) : Counter.wf (mergeOpened fs filenames t) = true := by
  simp only [mergeOpened]
  induction filenames.filterMap fs generalizing t with
  | nil => exact hwf
  | cons input l ih => exact ih _ (wf_merge _ t hwf)

theorem foldl_count_words_eq (inputs : List (List Nat)) (t : Counter)
    (hwf : Counter.wf t = true) :
    inputs.foldl (fun acc input => count_words input acc) t
      = inputs.foldl (fun acc input => merge (count_words input []) acc) t := by
  induction inputs generalizing t with
  | nil => rfl
  | cons input l ih =>
      rw [List.foldl_cons, List.foldl_cons, count_words_merge input t hwf]
      exact ih _ (wf_merge _ t hwf)

theorem sync_all_open (fs : FileSystem) (filenames : List Str) (t : Counter)
    (opened : List Str) (hopen : ∀ f ∈ filenames, (fs f).isSome = true) :
    count_files_sync fs filenames t opened
      = (true, (filenames.filterMap fs).foldl (fun acc input => count_words input acc) t,
          opened ++ filenames) := by
  induction filenames generalizing t opened with
  | nil => simp [count_files_sync]
  | cons f fl ih =>
      have hf := hopen f (List.mem_cons_self _ _)
      obtain ⟨input, hin⟩ := Option.isSome_iff_exists.1 hf
      simp only [count_files_sync, count_file, hin, List.filterMap_cons, List.foldl_cons]
      rw [ih _ _ (fun g hg => hopen g (List.mem_cons_of_mem _ hg))]
      simp

theorem sync_first_failure (fs : FileSystem) (pre : List Str) (f : Str) (post : List Str)
    (t : Counter) (opened : List Str) (hpre : ∀ g ∈ pre, (fs g).isSome = true)
    (hf : fs f = none) :
    count_files_sync fs (pre ++ f :: post) t opened
      = (false, (pre.filterMap fs).foldl (fun acc input => count_words input acc) t,
          opened ++ pre ++ [f]) := by
  induction pre generalizing t opened with
  | nil => simp [count_files_sync, count_file, hf]
  | cons g pre ih =>
      have hg := hpre g (List.mem_cons_self _ _)
      obtain ⟨input, hin⟩ := Option.isSome_iff_exists.1 hg
      have := ih (count_words input t) (opened ++ [g])
        (fun g hg => hpre g (List.mem_cons_of_mem _ hg))
      simp only [List.cons_append, count_files_sync, count_file, hin, List.filterMap_cons,
        List.foldl_cons]
      refine this.trans ?_
      simp

theorem sync_result_iff (fs : FileSystem) (filenames : List Str) (t : Counter)
    (opened : List Str) :
    (count_files_sync fs filenames t opened).1 = true ↔
      ∀ f ∈ filenames, (fs f).isSome = true := by
  induction filenames generalizing t opened with
  | nil => simp [count_files_sync]
  | cons f fl ih =>
      cases hfs : fs f with
      | none => simp [count_files_sync, count_file, hfs]
      | some input =>
          simp only [count_files_sync, count_file, hfs, List.mem_cons, forall_eq_or_imp,
            Option.isSome_some, true_and]
          exact ih _ _

/-! ## The strategies compared -/

/-- C1. Cross-strategy equivalence: when every file of the list opens, and from
every well-formed initial table, `count_files_sync` returns true and leaves the
table that counting every file into a table of its own and merging it gives;
every run of `count_files_async` and of `count_files_thread` can be completed,
and every complete run, whatever the order of the workers' locked updates, returns
true and leaves that same table. -/
theorem cross_strategy_equivalence (fs : FileSystem) (filenames : List Str) (t : Counter)
    (opened : List Str) (hwf : Counter.wf t = true)
    (hopen : ∀ f ∈ filenames, (fs f).isSome = true) :
    (count_files_sync fs filenames t opened).1 = true ∧
    (count_files_sync fs filenames t opened).2.1 = mergeOpened fs filenames t ∧
    (∀ sched, ∃ ext, (count_files_async fs filenames (sched ++ ext) t opened).isSome = true) ∧
    (∀ sched, ∃ ext, (count_files_thread fs filenames (sched ++ ext) t opened).isSome = true) ∧
    (∀ sched r, count_files_async fs filenames sched t opened = some r →
      r.1 = true ∧ r.2.1 = (count_files_sync fs filenames t opened).2.1) ∧
    (∀ sched r, count_files_thread fs filenames sched t opened = some r →
      r.1 = true ∧ r.2.1 = (count_files_sync fs filenames t opened).2.1) := by
  have hall : filenames.all (fun f => (fs f).isSome) = true := by
    simpa [List.all_eq_true] using hopen
  have hsync : (count_files_sync fs filenames t opened).2.1 = mergeOpened fs filenames t := by
    rw [sync_all_open fs filenames t opened hopen]
    exact foldl_count_words_eq _ t hwf
  refine ⟨(sync_result_iff fs filenames t opened).2 hopen, hsync,
    fun sched => async_completes fs filenames sched t opened,
    fun sched => thread_completes fs filenames sched t opened, ?_, ?_⟩
  · intro sched r hr
    have := async_result fs filenames sched t opened hwf r hr
    exact ⟨this.1.trans hall, this.2.trans hsync.symm⟩
  · intro sched r hr
    have := thread_result fs filenames sched t opened hwf r hr
    exact ⟨this.1.trans hall, this.2.trans hsync.symm⟩

/-- C1, on two files sharing a word and an interleaved schedule of the tasks. -/
theorem cross_strategy_equivalence_witness :
    Counter.wf [] = true ∧
    (∀ f ∈ [bytes "f1", bytes "f2"], (exampleFs f).isSome = true) ∧
    count_files_async exampleFs [bytes "f1", bytes "f2"]
        [0, 1, 0, 0, 0, 1, 1, 1, 0, 0, 0, 1, 1, 1, 1, 0, 1, 0] [] []
      = some (true, [(bytes "a", 2), (bytes "b", 1), (bytes "c", 1)], [bytes "f1", bytes "f2"]) ∧
    (true = true ∧ [(bytes "a", 2), (bytes "b", 1), (bytes "c", 1)]
      = (count_files_sync exampleFs [bytes "f1", bytes "f2"] [] []).2.1) :=
  ⟨by decide, by decide, by decide,
    (cross_strategy_equivalence exampleFs [bytes "f1", bytes "f2"] [] [] (by decide)
      (by decide)).2.2.2.2.1 [0, 1, 0, 0, 0, 1, 1, 1, 0, 0, 0, 1, 1, 1, 1, 0, 1, 0]
      (true, [(bytes "a", 2), (bytes "b", 1), (bytes "c", 1)], [bytes "f1", bytes "f2"])
      (by decide)⟩

/-- C3. The concurrent strategies wait for all workers and AND their outcomes: from
every well-formed table and for every file list, every run of `count_files_async`
and of `count_files_thread` can be completed, and every complete run returns true
exactly when every file of the list opens and leaves the initial table merged with
the word counts of every file of the list that opens. -/
theorem concurrent_wait_all (fs : FileSystem) (filenames : List Str) (t : Counter)
    (opened : List Str) (hwf : Counter.wf t = true) :
    (∀ sched, ∃ ext, (count_files_async fs filenames (sched ++ ext) t opened).isSome = true) ∧
    (∀ sched, ∃ ext, (count_files_thread fs filenames (sched ++ ext) t opened).isSome = true) ∧
    (∀ sched r, count_files_async fs filenames sched t opened = some r →
      (r.1 = true ↔ ∀ f ∈ filenames, (fs f).isSome = true) ∧
      r.2.1 = mergeOpened fs filenames t) ∧
    (∀ sched r, count_files_thread fs filenames sched t opened = some r →
      (r.1 = true ↔ ∀ f ∈ filenames, (fs f).isSome = true) ∧
      r.2.1 = mergeOpened fs filenames t) := by
  refine ⟨fun sched => async_completes fs filenames sched t opened,
    fun sched => thread_completes fs filenames sched t opened, ?_, ?_⟩
  · intro sched r hr
    have := async_result fs filenames sched t opened hwf r hr
    refine ⟨?_, this.2⟩
    rw [this.1]
    simp [List.all_eq_true]
  · intro sched r hr
    have := thread_result fs filenames sched t opened hwf r hr
    refine ⟨?_, this.2⟩
    rw [this.1]
    simp [List.all_eq_true]

/-- C3, on a missing file followed by a readable one: the threads return false
and the readable file is merged. -/
theorem concurrent_wait_all_witness :
    Counter.wf [(bytes "a", 4)] = true ∧
    count_files_thread exampleFs [bytes "missing", bytes "f2"]
        [1, 0, 1, 1, 1, 0, 1, 1, 1, 1, 1] [(bytes "a", 4)] []
      = some (false, [(bytes "a", 5), (bytes "c", 1)], [bytes "f2", bytes "missing"]) ∧
    ((false = true ↔ ∀ f ∈ [bytes "missing", bytes "f2"], (exampleFs f).isSome = true) ∧
      [(bytes "a", 5), (bytes "c", 1)]
        = mergeOpened exampleFs [bytes "missing", bytes "f2"] [(bytes "a", 4)]) :=
  ⟨by decide, by decide,
    (concurrent_wait_all exampleFs [bytes "missing", bytes "f2"] [(bytes "a", 4)] []
      (by decide)).2.2.2 [1, 0, 1, 1, 1, 0, 1, 1, 1, 1, 1]
      (false, [(bytes "a", 5), (bytes "c", 1)], [bytes "f2", bytes "missing"]) (by decide)⟩

/-- C4. The sequential strategy stops at the first file that does not open: when
the files of `pre` open and `f` does not, `count_files_sync` on `pre`, `f`, `post`
returns false, leaves the initial table plus the word counts of the files of `pre`,
and has opened the files of `pre` and `f` only; and on every list it returns true
exactly when every file opens. -/
theorem sync_short_circuit (fs : FileSystem) (pre : List Str) (f : Str) (post : List Str)
    (t : Counter) (opened : List Str) (hpre : ∀ g ∈ pre, (fs g).isSome = true)
    (hf : fs f = none) :
    count_files_sync fs (pre ++ f :: post) t opened
      = (false, (pre.filterMap fs).foldl (fun acc input => count_words input acc) t,
          opened ++ pre ++ [f]) ∧
    (pre.filterMap fs).length = pre.length ∧
    (∀ (filenames : List Str) (t1 : Counter) (opened1 : List Str),
      (count_files_sync fs filenames t1 opened1).1 = true ↔
        ∀ g ∈ filenames, (fs g).isSome = true) := by
  refine ⟨sync_first_failure fs pre f post t opened hpre hf, ?_, sync_result_iff fs⟩
  induction pre with
  | nil => rfl
  | cons g pre ih =>
      obtain ⟨input, hin⟩ := Option.isSome_iff_exists.1 (hpre g (List.mem_cons_self _ _))
      simp only [List.filterMap_cons, hin, List.length_cons]
      rw [ih (fun g hg => hpre g (List.mem_cons_of_mem _ hg))]

/-- C4, on a missing file followed by a readable one: false is returned, the
table is unchanged and the second file is never opened. -/
theorem sync_short_circuit_witness :
    (∀ g ∈ ([] : List Str), (exampleFs g).isSome = true) ∧
    exampleFs (bytes "missing") = none ∧
    count_files_sync exampleFs [bytes "missing", bytes "f2"] [(bytes "a", 4)] []
      = (false, [(bytes "a", 4)], [bytes "missing"]) :=
  ⟨by decide, by decide,
    (sync_short_circuit exampleFs [] (bytes "missing") [bytes "f2"] [(bytes "a", 4)] []
      (by decide) (by decide)).1⟩

/-! ## Merge is associative and commutative -/

theorem mergeAll_eq_foldl (tables : List Counter) (init : Counter) :
    mergeAll tables init
      = tables.flatten.foldl (fun acc e => Counter.addTo e.1 e.2 acc) init := by
  simp only [mergeAll]
  induction tables generalizing init with
  | nil => rfl
  | cons a l ih =>
      rw [List.foldl_cons, ih, List.flatten_cons, List.foldl_append]
      rfl

theorem wf_mergeAll (tables : List Counter) (init : Counter) (h : Counter.wf init = true) :
    Counter.wf (mergeAll tables init) = true := by
  rw [mergeAll_eq_foldl]; exact wf_foldl_addTo _ init h

theorem mergeAll_groups (groups : List (List Counter)) (init : Counter)
    (h : Counter.wf init = true) :
    mergeAll (groups.map (fun g => mergeAll g [])) init
      = groups.flatten.flatten.foldl (fun acc e => Counter.addTo e.1 e.2 acc) init := by
  induction groups generalizing init with
  | nil => rfl
  | cons g gs ih =>
      have h1 : Counter.wf (merge (mergeAll g []) init) = true := wf_merge _ init h
      have hstep : mergeAll (List.map (fun g => mergeAll g []) (g :: gs)) init
          = mergeAll (List.map (fun g => mergeAll g []) gs) (merge (mergeAll g []) init) := rfl
      rw [hstep, ih _ h1, List.flatten_cons, List.flatten_append, List.foldl_append,
        mergeAll_eq_foldl g [], merge_foldl_addTo _ init h]

theorem merge_foldl_addTo_gen (es : List (Str × Nat)) (b c : Counter)
    (hb : Counter.wf b = true) (hc : Counter.wf c = true) :
    merge (es.foldl (fun acc e => Counter.addTo e.1 e.2 acc) b) c
      = es.foldl (fun acc e => Counter.addTo e.1 e.2 acc) (merge b c) := by
  have hx := wf_foldl_addTo es b hb
  have hbc := wf_merge b c hc
  apply counter_ext _ _ (wf_merge _ c hc) (wf_foldl_addTo es _ hbc)
  intro k
  rw [find_merge _ c hx hc k, find_foldl_addTo es b hb k, find_foldl_addTo es _ hbc k]
  have hm := find_merge b c hb hc k
  by_cases ht : touched es k = true
  · simp only [ht, if_true]
    cases hfb : Counter.find b k with
    | none =>
        rw [hfb] at hm
        simp only [Counter.cnt, hm, hfb, Option.getD_none, Nat.zero_add, Nat.add_mod_mod]
    | some v =>
        rw [hfb] at hm
        simp only [Counter.cnt, hm, hfb, Option.getD_some, Nat.add_mod_mod, Nat.mod_add_mod,
          Nat.add_assoc]
  · simp only [ht, Bool.false_eq_true, if_false]
    rw [hm]

theorem merge_assoc (a b c : Counter) (hb : Counter.wf b = true) (hc : Counter.wf c = true) :
    merge (merge a b) c = merge a (merge b c) :=
  merge_foldl_addTo_gen a b c hb hc

theorem find_lt_of_wf (t : Counter) (hwf : Counter.wf t = true) (k : Str) (v : Nat)
    (h : Counter.find t k = some v) : v < SIZE_MOD := by
  have := cnt_lt_of_wf t hwf k
  simpa [Counter.cnt, h] using this

theorem merge_comm (a b : Counter) (ha : Counter.wf a = true) (hb : Counter.wf b = true) :
    merge a b = merge b a := by
  apply counter_ext _ _ (wf_merge a b hb) (wf_merge b a ha)
  intro k
  rw [find_merge a b ha hb k, find_merge b a hb ha k]
  cases hfa : Counter.find a k with
  | none =>
      cases hfb : Counter.find b k with
      | none => rfl
      | some v =>
          have := find_lt_of_wf b hb k v hfb
          simp [Counter.cnt, hfa, Nat.mod_eq_of_lt this]
  | some u =>
      have hu := find_lt_of_wf a ha k u hfa
      cases hfb : Counter.find b k with
      | none => simp [Counter.cnt, hfb, Nat.mod_eq_of_lt hu]
      | some v => simp [Counter.cnt, hfa, hfb, Nat.add_comm]

theorem merge_left_comm (a b c : Counter) (hc : Counter.wf c = true) :
    merge a (merge b c) = merge b (merge a c) := by
  simp only [merge, ← List.foldl_append]
  exact foldl_addTo_perm List.perm_append_comm c hc

/-- C2. Merge is associative and commutative: for every list `ts` of per-file
tables, every partition `groups` of it and every order `order` of it, merging the
tables of each group into a group table and the group tables into an empty table
gives the table that merging the tables one by one, in that order, gives; and on
well-formed tables `merge` is associative and commutative, and two merges into a
table commute. -/
theorem merge_assoc_comm (ts : List Counter) (groups : List (List Counter))
    (order : List Counter) (hgroups : groups.flatten.Perm ts) (horder : order.Perm ts) :
    mergeAll (groups.map (fun g => mergeAll g [])) [] = mergeAll order [] ∧
    (∀ a b c : Counter, Counter.wf b = true → Counter.wf c = true →
      merge (merge a b) c = merge a (merge b c)) ∧
    (∀ a b : Counter, Counter.wf a = true → Counter.wf b = true → merge a b = merge b a) ∧
    (∀ a b c : Counter, Counter.wf c = true → merge a (merge b c) = merge b (merge a c)) := by
  refine ⟨?_, merge_assoc, merge_comm, merge_left_comm⟩
  rw [mergeAll_groups groups [] rfl, mergeAll_eq_foldl order []]
  exact foldl_addTo_perm (hgroups.trans horder.symm).flatten [] rfl

/-- C2, on three tables: grouped as the third with the first, then the second,
against the order second, first, third. -/
theorem merge_assoc_comm_witness :
    ([[[(bytes "c", 1)], [(bytes "a", 1)]], [[(bytes "a", 2), (bytes "b", 1)]]] :
        List (List Counter)).flatten.Perm
      [[(bytes "a", 1)], [(bytes "a", 2), (bytes "b", 1)], [(bytes "c", 1)]] ∧
    mergeAll ([[[(bytes "c", 1)], [(bytes "a", 1)]], [[(bytes "a", 2), (bytes "b", 1)]]].map
        (fun g => mergeAll g [])) []
      = mergeAll [[(bytes "a", 2), (bytes "b", 1)], [(bytes "a", 1)], [(bytes "c", 1)]] [] ∧
    mergeAll [[(bytes "a", 2), (bytes "b", 1)], [(bytes "a", 1)], [(bytes "c", 1)]] []
      = [(bytes "a", 3), (bytes "b", 1), (bytes "c", 1)] :=
  ⟨by decide,
    (merge_assoc_comm
      [[(bytes "a", 1)], [(bytes "a", 2), (bytes "b", 1)], [(bytes "c", 1)]]
      [[[(bytes "c", 1)], [(bytes "a", 1)]], [[(bytes "a", 2), (bytes "b", 1)]]]
      [[(bytes "a", 2), (bytes "b", 1)], [(bytes "a", 1)], [(bytes "c", 1)]]
      (by decide) (by decide)).1,
    by decide⟩

/-! ## Counting the words of a stream -/

theorem find_count_words (stream : List Nat) (t : Counter) (hwf : Counter.wf t = true)
    (w : Str) :
    Counter.find (count_words stream t) w =
      if 0 < runCount stream w then some ((Counter.cnt t w + runCount stream w) % SIZE_MOD)
      else Counter.find t w := by
  rw [count_words_eq, find_foldl_addTo _ t hwf w, touched_wordUpdates, tally_wordUpdates]
  simp

theorem cnt_count_words (stream : List Nat) (t : Counter) (hwf : Counter.wf t = true)
    (w : Str) :
    Counter.cnt (count_words stream t) w = (Counter.cnt t w + runCount stream w) % SIZE_MOD := by
  have h := find_count_words stream t hwf w
  by_cases hr : 0 < runCount stream w
  · simp only [Counter.cnt, h, if_pos hr, Option.getD_some]
  · have h0 : runCount stream w = 0 := by omega
    simp only [Counter.cnt, h, if_neg hr, h0, Nat.add_zero]
    exact (Nat.mod_eq_of_lt (cnt_lt_of_wf t hwf w)).symm

theorem mem_maximalRuns_ne_nil (stream : List Nat) (r : Str) (h : r ∈ maximalRuns stream) :
    r ≠ [] := by
  simp only [maximalRuns, List.mem_filter] at h
  intro e
  subst e
  simp at h

theorem runCount_nil (stream : List Nat) : runCount stream [] = 0 := by
  simp only [runCount]
  rw [List.count_eq_zero]
  intro hmem
  obtain ⟨r, hr, he⟩ := List.mem_map.1 hmem
  have hne := mem_maximalRuns_ne_nil stream r hr
  simp only [tolower, List.map_eq_nil_iff] at he
  exact hne he

theorem maximalRuns_of_all_space (stream : List Nat) (h : stream.all isspace = true) :
    maximalRuns stream = [] := by
  induction stream with
  | nil => exact maximalRuns_nil
  | cons c s ih =>
      simp only [List.all_cons, Bool.and_eq_true] at h
      rw [maximalRuns_cons_space c s h.1]
      exact ih h.2

/-- C5, as the code has it. Tokenizing and case-folding count: from a well-formed
table, after `count_words` the count of each word `w` is its initial count plus the
number of maximal runs of non-whitespace characters whose lowercased form is `w`,
taken modulo `2 ^ 64` (so it is that sum whenever the sum is below `2 ^ 64`); a
key is present after the call exactly when it was present or some run lowercases to
it; the empty string is never inserted as a key; and a stream that is empty or
only whitespace leaves the table unchanged. -/
theorem count_words_counts (stream : List Nat) (t : Counter) (w : Str)
    (hwf : Counter.wf t = true) :
    Counter.cnt (count_words stream t) w
      = (Counter.cnt t w + runCount stream w) % SIZE_MOD ∧
    (Counter.cnt t w + runCount stream w < SIZE_MOD →
      Counter.cnt (count_words stream t) w = Counter.cnt t w + runCount stream w) ∧
    ((Counter.find (count_words stream t) w).isSome
      = ((Counter.find t w).isSome || decide (0 < runCount stream w))) ∧
    Counter.find (count_words stream t) [] = Counter.find t [] ∧
    (stream.all isspace = true → count_words stream t = t) := by
  refine ⟨cnt_count_words stream t hwf w, ?_, ?_, ?_, ?_⟩
  · intro hlt
    rw [cnt_count_words stream t hwf w, Nat.mod_eq_of_lt hlt]
  · rw [find_count_words stream t hwf w]
    by_cases hr : 0 < runCount stream w
    · simp [hr]
    · simp [hr]
  · rw [find_count_words stream t hwf [], runCount_nil]
    simp
  · intro hall
    rw [count_words_eq, wordUpdates, maximalRuns_of_all_space stream hall]
    rfl

/-- C5, on three spellings of one word after leading whitespace: one counter,
raised by three. -/
theorem count_words_counts_witness :
    Counter.wf [(bytes "the", 4)] = true ∧
    runCount (bytes " The the\tTHE\n") (bytes "the") = 3 ∧
    count_words (bytes " The the\tTHE\n") [(bytes "the", 4)] = [(bytes "the", 7)] ∧
    Counter.cnt (count_words (bytes " The the\tTHE\n") [(bytes "the", 4)]) (bytes "the")
      = (Counter.cnt [(bytes "the", 4)] (bytes "the")
          + runCount (bytes " The the\tTHE\n") (bytes "the")) % SIZE_MOD :=
  ⟨by decide, by decide, by decide,
    (count_words_counts (bytes " The the\tTHE\n") [(bytes "the", 4)] (bytes "the")
      (by decide)).1⟩

/-- C5 as stated fails where a count wraps: with the count of `a` at the greatest
`size_t` value, one more `a` leaves the count `0`, not the initial count plus one. -/
theorem count_words_counts_wraps :
    Counter.wf [(bytes "a", 2 ^ 64 - 1)] = true ∧
    runCount (bytes "a") (bytes "a") = 1 ∧
    count_words (bytes "a") [(bytes "a", 2 ^ 64 - 1)] = [(bytes "a", 0)] ∧
    ¬ (Counter.cnt (count_words (bytes "a") [(bytes "a", 2 ^ 64 - 1)]) (bytes "a")
        = Counter.cnt [(bytes "a", 2 ^ 64 - 1)] (bytes "a") + runCount (bytes "a") (bytes "a")) := by
  decide

/-! ## The invariant of the tables: no zero count -/

theorem positive_iff (t : Counter) (hwf : Counter.wf t = true) :
    Counter.positive t = true ↔ ∀ k v, Counter.find t k = some v → 1 ≤ v := by
  simp only [Counter.positive, List.all_eq_true, decide_eq_true_eq]
  constructor
  · intro h k v hf
    exact h (k, v) (mem_of_find t k v hf)
  · intro h e he
    exact h e.1 e.2 (find_of_mem t hwf e.1 e.2 he)

theorem tally_pos_of_touched (es : List (Str × Nat)) (hes : ∀ e ∈ es, 1 ≤ e.2) (k : Str)
    (h : touched es k = true) : 1 ≤ tally es k := by
  induction es with
  | nil => simp [touched] at h
  | cons e es ih =>
      have he := hes e (List.mem_cons_self _ _)
      by_cases hk : e.1 = k
      · simp only [tally, List.filter_cons, hk, decide_True, if_true, List.map_cons,
          List.sum_cons]
        omega
      · have ht : touched es k = true := by
          simpa [touched, hk] using h
        have := ih (fun e he => hes e (List.mem_cons_of_mem _ he)) ht
        simpa [tally, List.filter_cons, hk] using this

/-- Updates by counts of `1` at least keep every count at `1` at least, as long as no
count reaches `2 ^ 64`. -/
theorem positive_foldl_addTo (es : List (Str × Nat)) (t : Counter)
    (hwf : Counter.wf t = true) (hpos : Counter.positive t = true)
    (hes : ∀ e ∈ es, 1 ≤ e.2) (hno : ∀ k, Counter.cnt t k + tally es k < SIZE_MOD) :
    Counter.positive (es.foldl (fun acc e => Counter.addTo e.1 e.2 acc) t) = true := by
  rw [positive_iff _ (wf_foldl_addTo es t hwf)]
  intro k v hf
  rw [find_foldl_addTo es t hwf k] at hf
  by_cases ht : touched es k = true
  · rw [if_pos ht, Nat.mod_eq_of_lt (hno k)] at hf
    have := tally_pos_of_touched es hes k ht
    simp only [Option.some.injEq] at hf
    omega
  · rw [if_neg ht] at hf
    exact (positive_iff t hwf).1 hpos k v hf

theorem positive_count_words (stream : List Nat) (t : Counter)
    (hwf : Counter.wf t = true) (hpos : Counter.positive t = true)
    (hno : ∀ w, Counter.cnt t w + runCount stream w < SIZE_MOD) :
    Counter.positive (count_words stream t) = true := by
  rw [count_words_eq]
  apply positive_foldl_addTo _ t hwf hpos
  · intro e he
    simp only [wordUpdates, List.mem_map] at he
    obtain ⟨r, _, rfl⟩ := he
    exact Nat.le_refl 1
  · intro k
    rw [tally_wordUpdates]
    exact hno k

theorem positive_merge (a t : Counter) (ha : Counter.wf a = true)
    (hapos : Counter.positive a = true) (hwf : Counter.wf t = true)
    (hpos : Counter.positive t = true)
    (hno : ∀ w, Counter.cnt t w + Counter.cnt a w < SIZE_MOD) :
    Counter.positive (merge a t) = true := by
  apply positive_foldl_addTo a t hwf hpos
  · intro e he
    simp only [Counter.positive, List.all_eq_true, decide_eq_true_eq] at hapos
    exact hapos e he
  · intro k
    rw [tally_of_wf a ha k]
    exact hno k

theorem positive_foldl_count_words (inputs : List (List Nat)) (t : Counter)
    (hwf : Counter.wf t = true) (hpos : Counter.positive t = true)
    (hno : ∀ w, Counter.cnt t w + (inputs.map (fun input => runCount input w)).sum < SIZE_MOD) :
    Counter.positive (inputs.foldl (fun acc input => count_words input acc) t) = true := by
  induction inputs generalizing t with
  | nil => exact hpos
  | cons input l ih =>
      have h1 : ∀ w, Counter.cnt t w + runCount input w < SIZE_MOD := by
        intro w
        have := hno w
        simp only [List.map_cons, List.sum_cons] at this
        omega
      rw [List.foldl_cons]
      apply ih _ (wf_count_words input t hwf) (positive_count_words input t hwf hpos h1)
      intro w
      have := hno w
      simp only [List.map_cons, List.sum_cons] at this
      rw [cnt_count_words input t hwf w, Nat.mod_eq_of_lt (h1 w)]
      omega

/-- The table `count_files_sync` leaves: the words of the files it counts, those
before the first file that does not open, counted into the initial table. -/
theorem sync_table_eq (fs : FileSystem) (filenames : List Str) (t : Counter)
    (opened : List Str) :
    (count_files_sync fs filenames t opened).2.1
      = ((syncRead fs filenames).filterMap fs).foldl
          (fun acc input => count_words input acc) t := by
  induction filenames generalizing t opened with
  | nil => rfl
  | cons f fl ih =>
      cases hfs : fs f with
      | none => simp [count_files_sync, count_file, syncRead, List.takeWhile_cons, hfs]
      | some input =>
          have := ih (count_words input t) (opened ++ [f])
          simp only [syncRead] at this
          simp only [count_files_sync, count_file, syncRead, List.takeWhile_cons, hfs,
            Option.isSome_some, if_true, List.filterMap_cons, List.foldl_cons]
          exact this

theorem positive_sync (fs : FileSystem) (filenames : List Str) (t : Counter)
    (opened : List Str) (hwf : Counter.wf t = true) (hpos : Counter.positive t = true)
    (hno : ∀ w, Counter.cnt t w + totalRuns fs (syncRead fs filenames) w < SIZE_MOD) :
    Counter.positive (count_files_sync fs filenames t opened).2.1 = true := by
  rw [sync_table_eq]
  exact positive_foldl_count_words _ t hwf hpos hno

theorem positive_mergeOpened (fs : FileSystem) (filenames : List Str) (t : Counter)
    (hwf : Counter.wf t = true) (hpos : Counter.positive t = true)
    (hno : ∀ w, Counter.cnt t w + totalRuns fs filenames w < SIZE_MOD) :
    Counter.positive (mergeOpened fs filenames t) = true := by
  rw [mergeOpened, ← foldl_count_words_eq _ t hwf]
  exact positive_foldl_count_words _ t hwf hpos hno

/-- C8, as the code has it. When every key present in a well-formed table has a
count of `1` at least, and no count reaches `2 ^ 64` (the count of each word plus
what the call adds to it stays below `2 ^ 64`), then every key present has a count
of `1` at least: after `count_words`, what is added being the runs of the stream;
after the merge loop of `threadsafe_count_file`, what is added being the counts of
the merged table; after `count_files_sync` on any file list, what is added being
the runs of the files it counts, those before the first file that does not open;
and after `count_files_async` and `count_files_thread` on any file list, every run
of which can be completed, what is added being the runs of the files that open. -/
theorem positive_preserved (fs : FileSystem) (t : Counter) (hwf : Counter.wf t = true)
    (hpos : Counter.positive t = true) :
    (∀ stream, (∀ w, Counter.cnt t w + runCount stream w < SIZE_MOD) →
      Counter.positive (count_words stream t) = true) ∧
    (∀ a, Counter.wf a = true → Counter.positive a = true →
      (∀ w, Counter.cnt t w + Counter.cnt a w < SIZE_MOD) →
      Counter.positive (merge a t) = true) ∧
    (∀ filenames opened,
      (count_files_sync fs filenames t opened).2.1
        = ((syncRead fs filenames).filterMap fs).foldl
            (fun acc input => count_words input acc) t ∧
      ((∀ w, Counter.cnt t w + totalRuns fs (syncRead fs filenames) w < SIZE_MOD) →
        Counter.positive (count_files_sync fs filenames t opened).2.1 = true)) ∧
    (∀ filenames opened, (∀ w, Counter.cnt t w + totalRuns fs filenames w < SIZE_MOD) →
      (∀ sched, ∃ ext,
        (count_files_async fs filenames (sched ++ ext) t opened).isSome = true) ∧
      (∀ sched r, count_files_async fs filenames sched t opened = some r →
        Counter.positive r.2.1 = true) ∧
      (∀ sched, ∃ ext,
        (count_files_thread fs filenames (sched ++ ext) t opened).isSome = true) ∧
      (∀ sched r, count_files_thread fs filenames sched t opened = some r →
        Counter.positive r.2.1 = true)) := by
  refine ⟨fun stream h => positive_count_words stream t hwf hpos h,
    fun a ha hap h => positive_merge a t ha hap hwf hpos h, ?_, ?_⟩
  · intro filenames opened
    exact ⟨sync_table_eq fs filenames t opened,
      fun hno => positive_sync fs filenames t opened hwf hpos hno⟩
  · intro filenames opened hno
    refine ⟨fun sched => async_completes fs filenames sched t opened, ?_,
      fun sched => thread_completes fs filenames sched t opened, ?_⟩
    · intro sched r hr
      rw [(async_result fs filenames sched t opened hwf r hr).2]
      exact positive_mergeOpened fs filenames t hwf hpos hno
    · intro sched r hr
      rw [(thread_result fs filenames sched t opened hwf r hr).2]
      exact positive_mergeOpened fs filenames t hwf hpos hno

/-- C8, on a table whose count of `a` is the greatest `size_t` value and the list
of a missing file followed by `f2`, which has an `a`: `count_files_sync` stops at
the missing file, adds nothing, and the invariant is kept. -/
theorem positive_preserved_witness :
    Counter.wf [(bytes "a", 2 ^ 64 - 1)] = true ∧
    Counter.positive [(bytes "a", 2 ^ 64 - 1)] = true ∧
    syncRead exampleFs [bytes "missing", bytes "f2"] = [] ∧
    count_files_sync exampleFs [bytes "missing", bytes "f2"] [(bytes "a", 2 ^ 64 - 1)] []
      = (false, [(bytes "a", 2 ^ 64 - 1)], [bytes "missing"]) ∧
    Counter.positive
      (count_files_sync exampleFs [bytes "missing", bytes "f2"]
        [(bytes "a", 2 ^ 64 - 1)] []).2.1 = true :=
  ⟨by decide, by decide, by decide, by decide,
    ((positive_preserved exampleFs [(bytes "a", 2 ^ 64 - 1)] (by decide) (by decide)).2.2.1
      [bytes "missing", bytes "f2"] []).2
      (fun w => by
        have h1 := cnt_lt_of_wf [(bytes "a", 2 ^ 64 - 1)] (by decide) w
        have h2 : syncRead exampleFs [bytes "missing", bytes "f2"] = [] := by decide
        rw [h2]
        simpa [totalRuns] using h1)⟩

/-- C8 as stated fails where a count wraps: every key of the table has a count of
`1` at least, and after merging a private table with one more `a` the key `a` is
present with count `0`; the same table results from `count_words`. -/
theorem positive_lost_on_wrap :
    Counter.wf [(bytes "a", 2 ^ 64 - 1), (bytes "b", 1)] = true ∧
    Counter.positive [(bytes "a", 2 ^ 64 - 1), (bytes "b", 1)] = true ∧
    merge (count_words (bytes "b A") []) [(bytes "a", 2 ^ 64 - 1), (bytes "b", 1)]
      = [(bytes "a", 0), (bytes "b", 2)] ∧
    Counter.positive
      (merge (count_words (bytes "b A") []) [(bytes "a", 2 ^ 64 - 1), (bytes "b", 1)]) = false ∧
    Counter.positive
      (count_words (bytes "b A") [(bytes "a", 2 ^ 64 - 1), (bytes "b", 1)]) = false := by
  decide

/-! ## The top-K report -/

theorem nodup_keys_of_wf (t : Counter) (hwf : Counter.wf t = true) :
    (t.map Prod.fst).Nodup := by
  induction t with
  | nil => exact List.nodup_nil
  | cons e rest ih =>
      obtain ⟨k, v⟩ := e
      rw [wf_cons] at hwf
      rw [List.map_cons, List.nodup_cons]
      refine ⟨?_, ih hwf.2.2⟩
      intro hmem
      obtain ⟨e, he, hk⟩ := List.mem_map.1 hmem
      exact strLt_ne k e.1 (hwf.2.1 e he) hk.symm

/-- The entries `print_topk` writes, when `std::partial_sort` has done what the
standard promises. -/
theorem print_topk_written (partial_sort : PartialSort) (counter : Counter) (k : Nat)
    (hwf : Counter.wf counter = true) (hne : counter ≠ [])
    (hps : PartialSortPost comp (min k counter.length) counter
      (partial_sort comp (min k counter.length) counter)) :
    ∃ written : List (Str × Nat),
      print_topk partial_sort counter k = written.map (fun e => Line.rank e.2 e.1) ∧
      written.length = min k counter.length ∧
      (∀ e ∈ written, e ∈ counter) ∧
      (written.map Prod.fst).Nodup ∧
      written.Pairwise (fun a b => b.2 ≤ a.2) ∧
      (∀ e ∈ counter, e ∉ written → ∀ x ∈ written, e.2 ≤ x.2) := by
  obtain ⟨hperm, hsorted, hrest⟩ := hps
  refine ⟨(partial_sort comp (min k counter.length) counter).take (min k counter.length),
    ?_, ?_, ?_, ?_, ?_, ?_⟩
  · have hlen : counter.length ≠ 0 := fun h => hne (List.length_eq_zero.1 h)
    simp only [print_topk, hlen, if_false]
  · rw [List.length_take, hperm.length_eq]
    omega
  · intro e he
    exact hperm.mem_iff.1 (List.mem_of_mem_take he)
  · have h1 : ((partial_sort comp (min k counter.length) counter).map Prod.fst).Nodup :=
      (hperm.map Prod.fst).nodup_iff.2 (nodup_keys_of_wf counter hwf)
    exact h1.sublist ((List.take_sublist _ _).map Prod.fst)
  · refine hsorted.imp ?_
    intro a b hab
    simpa [comp] using hab
  · intro e he hnot x hx
    have hmem : e ∈ partial_sort comp (min k counter.length) counter := hperm.mem_iff.2 he
    rw [← List.take_append_drop (min k counter.length)
      (partial_sort comp (min k counter.length) counter)] at hmem
    rcases List.mem_append.1 hmem with h | h
    · exact absurd h hnot
    · have := hrest x hx e h
      simpa [comp] using this

/-- C6. Top-K selection: for every non-empty table and every `k`, when
`std::partial_sort` does what the standard promises, `print_topk` writes exactly
`min k size` lines, all rank lines, each for an entry of the table with that
entry's count, no word twice, in non-increasing order of count, and every entry
that is not written has a count no greater than the count of every entry that is
written. -/
theorem print_topk_selection (partial_sort : PartialSort) (counter : Counter) (k : Nat)
    (hwf : Counter.wf counter = true) (hne : counter ≠ [])
    (hps : PartialSortPost comp (min k counter.length) counter
      (partial_sort comp (min k counter.length) counter)) :
    (print_topk partial_sort counter k).length = min k counter.length ∧
    ∃ written : List (Str × Nat),
      print_topk partial_sort counter k = written.map (fun e => Line.rank e.2 e.1) ∧
      (∀ e ∈ written, e ∈ counter) ∧
      (written.map Prod.fst).Nodup ∧
      written.Pairwise (fun a b => b.2 ≤ a.2) ∧
      (∀ e ∈ counter, e ∉ written → ∀ x ∈ written, e.2 ≤ x.2) := by
  obtain ⟨written, hout, hlen, hmem, hnodup, hsorted, hrest⟩ :=
    print_topk_written partial_sort counter k hwf hne hps
  refine ⟨?_, written, hout, hmem, hnodup, hsorted, hrest⟩
  rw [hout, List.length_map, hlen]

/-- C6, for `k = 100` on a table of three entries, with the algorithm of
libstdc++: the three entries are written. -/
theorem print_topk_selection_witness :
    Counter.wf [(bytes "x", 1), (bytes "y", 2), (bytes "z", 3)] = true ∧
    print_topk gnu_partial_sort [(bytes "x", 1), (bytes "y", 2), (bytes "z", 3)] 100
      = [Line.rank 3 (bytes "z"), Line.rank 2 (bytes "y"), Line.rank 1 (bytes "x")] ∧
    (print_topk gnu_partial_sort [(bytes "x", 1), (bytes "y", 2), (bytes "z", 3)] 100).length
      = min 100 [(bytes "x", 1), (bytes "y", 2), (bytes "z", 3)].length :=
  ⟨by decide, by decide,
    (print_topk_selection gnu_partial_sort [(bytes "x", 1), (bytes "y", 2), (bytes "z", 3)] 100
      (by decide) (by decide) (by unfold PartialSortPost; decide)).1⟩

/-- C7, as the code has it. The output of `print_topk` is determined by the
content of the table (and the `std::partial_sort` of the library): two well-formed
tables of the same content give the same lines. When `std::partial_sort` does what
the standard promises, an entry of a strictly greater count than a written entry is
written too, and before it. Between entries of equal counts the code imposes no
order by word. -/
theorem print_topk_order (partial_sort : PartialSort) (counter counter2 : Counter) (k : Nat)
    (hwf : Counter.wf counter = true) (hwf2 : Counter.wf counter2 = true)
    (hsame : ∀ w, Counter.find counter w = Counter.find counter2 w) (hne : counter ≠ [])
    (hps : PartialSortPost comp (min k counter.length) counter
      (partial_sort comp (min k counter.length) counter)) :
    print_topk partial_sort counter k = print_topk partial_sort counter2 k ∧
    ∃ written : List (Str × Nat),
      print_topk partial_sort counter k = written.map (fun e => Line.rank e.2 e.1) ∧
      ∀ pre e2 post, written = pre ++ e2 :: post →
        ∀ e1 ∈ counter, e2.2 < e1.2 → e1 ∈ pre := by
  have heq : counter = counter2 := counter_ext counter counter2 hwf hwf2 hsame
  subst heq
  refine ⟨rfl, ?_⟩
  obtain ⟨written, hout, _, _, _, hsorted, hrest⟩ :=
    print_topk_written partial_sort counter k hwf hne hps
  refine ⟨written, hout, ?_⟩
  intro pre e2 post hw e1 he1 hlt
  have he2 : e2 ∈ written := by rw [hw]; simp
  by_cases hmem : e1 ∈ written
  · rw [hw] at hmem hsorted
    rcases List.mem_append.1 hmem with h | h
    · exact h
    · exfalso
      rcases List.mem_cons.1 h with h | h
      · rw [h] at hlt; exact Nat.lt_irrefl _ hlt
      · have hp := (List.pairwise_append.1 hsorted).2.1
        have := (List.pairwise_cons.1 hp).1 e1 h
        omega
  · have := hrest e1 he1 hmem e2 he2
    omega

/-- C7, on the table of the claim, with the algorithm of libstdc++: `a` with `5`
then `b` with `3`. -/
theorem print_topk_order_witness :
    Counter.wf [(bytes "a", 5), (bytes "b", 3), (bytes "c", 3), (bytes "d", 1)] = true ∧
    print_topk gnu_partial_sort
        [(bytes "a", 5), (bytes "b", 3), (bytes "c", 3), (bytes "d", 1)] 2
      = [Line.rank 5 (bytes "a"), Line.rank 3 (bytes "b")] ∧
    print_topk gnu_partial_sort
        [(bytes "a", 5), (bytes "b", 3), (bytes "c", 3), (bytes "d", 1)] 2
      = print_topk gnu_partial_sort
        [(bytes "a", 5), (bytes "b", 3), (bytes "c", 3), (bytes "d", 1)] 2 :=
  ⟨by decide, by decide,
    (print_topk_order gnu_partial_sort
      [(bytes "a", 5), (bytes "b", 3), (bytes "c", 3), (bytes "d", 1)]
      [(bytes "a", 5), (bytes "b", 3), (bytes "c", 3), (bytes "d", 1)] 2
      (by decide) (by decide) (fun _ => rfl) (by decide)
      (by unfold PartialSortPost; decide)).1⟩

/-- C7 as stated fails: the comparison of `print_topk` looks at the counts only. On
the table `a:1, b:2, c:2` with `k = 2`, the algorithm of libstdc++ writes `c` before
`b`, though `b` is the smaller word; and on the table of the claim the standard
also allows the result that writes `c` with `3` in the second line. -/
theorem print_topk_tie_not_by_word :
    Counter.wf [(bytes "a", 1), (bytes "b", 2), (bytes "c", 2)] = true ∧
    strLt (bytes "b") (bytes "c") = true ∧
    print_topk gnu_partial_sort [(bytes "a", 1), (bytes "b", 2), (bytes "c", 2)] 2
      = [Line.rank 2 (bytes "c"), Line.rank 2 (bytes "b")] ∧
    PartialSortPost comp 2 [(bytes "a", 5), (bytes "b", 3), (bytes "c", 3), (bytes "d", 1)]
      [(bytes "a", 5), (bytes "c", 3), (bytes "b", 3), (bytes "d", 1)] ∧
    print_topk (fun _ _ _ => [(bytes "a", 5), (bytes "c", 3), (bytes "b", 3), (bytes "d", 1)])
        [(bytes "a", 5), (bytes "b", 3), (bytes "c", 3), (bytes "d", 1)] 2
      = [Line.rank 5 (bytes "a"), Line.rank 3 (bytes "c")] := by
  refine ⟨by decide, by decide, by decide, ?_, by decide⟩
  unfold PartialSortPost
  decide

/-! ## The locking discipline -/

theorem write_under_lock {strategy : Strategy} {fs : FileSystem} {filenames : List Str}
    {s : State} (h : Inv strategy fs filenames s) (i : Nat) :
    (step strategy fs i s).freq_dict = s.freq_dict ∨ s.m = some i := by
  unfold step threadsafe_count_file
  cases hw : s.workers[i]? with
  | none => exact Or.inl rfl
  | some w =>
      obtain ⟨f, pc⟩ := w
      cases pc with
      | start =>
          cases hfs : fs f with
          | none => simp [count_file, hfs]
          | some input => simp [count_file, hfs]
      | loop rest =>
          cases rest with
          | nil => exact Or.inl rfl
          | cons e rest =>
              cases hm : s.m with
              | none => exact Or.inl rfl
              | some j => exact Or.inl rfl
      | locked e rest => exact Or.inr ((h.lock i _ hw).1 rfl)
      | written rest => exact Or.inl rfl
      | returned r =>
          cases strategy with
          | async => exact Or.inl rfl
          | thread => exact Or.inl rfl
      | done r => exact Or.inl rfl

/-- C10, as the code has it. In every state of every run of `count_files_async` and
of `count_files_thread`: a worker holds the mutex exactly between the construction
and the destruction of its `std::lock_guard`, that is around one update
`freq_dict[word] += count`; an action changes the shared table only when its worker
holds the mutex; a worker that has not yet counted its file, or that stands between
two entries of its merge loop, does not hold the mutex; and two workers are never
both between taking and releasing the mutex. -/
theorem lock_discipline (strategy : Strategy) (fs : FileSystem) (filenames : List Str)
    (t : Counter) (opened : List Str) (sched : List Nat) :
    (∀ i w, (run strategy fs sched (launch filenames t opened)).workers[i]? = some w →
      (w.pc.inCritical = true ↔
        (run strategy fs sched (launch filenames t opened)).m = some i)) ∧
    (∀ i, (step strategy fs i (run strategy fs sched (launch filenames t opened))).freq_dict
        = (run strategy fs sched (launch filenames t opened)).freq_dict ∨
      (run strategy fs sched (launch filenames t opened)).m = some i) ∧
    (∀ i w, (run strategy fs sched (launch filenames t opened)).workers[i]? = some w →
      w.pc = Pc.start → (run strategy fs sched (launch filenames t opened)).m ≠ some i) ∧
    (∀ i w rest, (run strategy fs sched (launch filenames t opened)).workers[i]? = some w →
      w.pc = Pc.loop rest → (run strategy fs sched (launch filenames t opened)).m ≠ some i) ∧
    (∀ (i j : Nat) (wi wj : Worker),
      (run strategy fs sched (launch filenames t opened)).workers[i]? = some wi →
      (run strategy fs sched (launch filenames t opened)).workers[j]? = some wj →
      wi.pc.inCritical = true → wj.pc.inCritical = true → i = j) := by
  have hinv : Inv strategy fs filenames (run strategy fs sched (launch filenames t opened)) :=
    run_inv sched (inv_launch strategy fs filenames t opened)
  refine ⟨hinv.lock, fun i => write_under_lock hinv i, ?_, ?_, ?_⟩
  · intro i w hw hpc hm
    have := (hinv.lock i w hw).2 hm
    rw [hpc] at this
    exact Bool.false_ne_true this
  · intro i w rest hw hpc hm
    have := (hinv.lock i w hw).2 hm
    rw [hpc] at this
    exact Bool.false_ne_true this
  · intro i j wi wj hi hj hci hcj
    have h1 := (hinv.lock i wi hi).1 hci
    have h2 := (hinv.lock j wj hj).1 hcj
    rw [h1] at h2
    exact Option.some.inj h2

/-- C10 as stated fails: the mutex is not held for a whole merge call. After the
actions `0, 1, 0, 0, 0, 1, 1` on the files `f1` and `f2`, the worker of `f1` has
merged the entry `a` of its table and has the entry `b` left, and the worker of `f2`
holds the mutex and has added its own `a` to the shared table in between. -/
theorem lock_released_between_entries :
    count_words (bytes "b a") [] = [(bytes "a", 1), (bytes "b", 1)] ∧
    run Strategy.async exampleFs [0, 1, 0, 0, 0, 1, 1]
        (launch [bytes "f1", bytes "f2"] [] [])
      = { freq_dict := [(bytes "a", 2)], m := some 1,
          workers := [⟨bytes "f1", Pc.loop [(bytes "b", 1)]⟩,
                      ⟨bytes "f2", Pc.written [(bytes "c", 1)]⟩],
          total_result := true, opened := [bytes "f1", bytes "f2"] } := by
  decide

/-! ## The benchmark loop -/

theorem test_loop_result
    (count_files : Nat → Counter → List Str → Option (Bool × Counter × List Str))
    (T : Counter)
    (hcf : ∀ i o r, count_files i [] o = some r → r.1 = true ∧ r.2.1 = T) :
    ∀ (n i : Nat) (d : Counter) (o : List Str) (r : Bool × Counter × List Str),
      count_files_test_loop count_files (n + 1) i d o = some r → r.1 = true ∧ r.2.1 = T := by
  intro n
  induction n with
  | zero =>
      intro i d o r h
      simp only [count_files_test_loop] at h
      cases hc : count_files i [] o with
      | none => rw [hc] at h; cases h
      | some r1 =>
          obtain ⟨b, d1, o1⟩ := r1
          have := hcf i o _ hc
          simp only at this
          obtain ⟨hb, hd⟩ := this
          subst hb
          rw [hc] at h
          simp only [Option.some.injEq] at h
          subst h
          exact ⟨rfl, hd⟩
  | succ n ih =>
      intro i d o r h
      rw [count_files_test_loop] at h
      cases hc : count_files i [] o with
      | none => rw [hc] at h; cases h
      | some r1 =>
          obtain ⟨b, d1, o1⟩ := r1
          have := hcf i o _ hc
          simp only at this
          obtain ⟨hb, _⟩ := this
          subst hb
          rw [hc] at h
          exact ih (i + 1) d1 o1 r h

theorem test_loop_congr
    (cf cf1 : Nat → Counter → List Str → Option (Bool × Counter × List Str)) :
    ∀ (n i : Nat) (d : Counter) (o : List Str), (∀ j, i ≤ j → cf j = cf1 j) →
      count_files_test_loop cf n i d o = count_files_test_loop cf1 n i d o := by
  intro n
  induction n with
  | zero => intro i d o _; rfl
  | succ n ih =>
      intro i d o h
      rw [count_files_test_loop, count_files_test_loop, h i (Nat.le_refl i)]
      cases hc : cf1 i [] o with
      | none => rfl
      | some r1 =>
          obtain ⟨b, d1, o1⟩ := r1
          cases b with
          | false => rfl
          | true => exact ih (i + 1) d1 o1 (fun j hj => h j (by omega))

theorem test_loop_exists
    (cfs : List Nat → Counter → List Str → Option (Bool × Counter × List Str))
    (hex : ∀ o, ∃ sched, (cfs sched [] o).isSome = true) :
    ∀ (n i : Nat) (d : Counter) (o : List Str), ∃ scheds : Nat → List Nat,
      (count_files_test_loop (fun j => cfs (scheds j)) n i d o).isSome = true := by
  intro n
  induction n with
  | zero => intro i d o; exact ⟨fun _ => [], rfl⟩
  | succ n ih =>
      intro i d o
      obtain ⟨sched0, h0⟩ := hex o
      obtain ⟨r0, hr0⟩ := Option.isSome_iff_exists.1 h0
      obtain ⟨b, d1, o1⟩ := r0
      cases b with
      | false =>
          refine ⟨fun _ => sched0, ?_⟩
          rw [count_files_test_loop]
          simp only [hr0]
          rfl
      | true =>
          obtain ⟨scheds1, h1⟩ := ih (i + 1) d1 o1
          refine ⟨fun j => if j = i then sched0 else scheds1 j, ?_⟩
          rw [count_files_test_loop]
          simp only [if_true, hr0]
          rw [test_loop_congr _ (fun j => cfs (scheds1 j)) n (i + 1) d1 o1]
          · exact h1
          · intro j hj
            have : j ≠ i := by omega
            simp only [this, if_false]

theorem test_of_loop (partial_sort : PartialSort) (test_name : Str)
    (count_files : Nat → Counter → List Str → Option (Bool × Counter × List Str))
    (opened : List Str) (T : Counter)
    (hloop : ∀ r, count_files_test_loop count_files TEST_COUNT 0 [] opened = some r →
      r.1 = true ∧ r.2.1 = T) :
    (∀ r, count_files_test partial_sort test_name count_files opened = some r →
      r.1 = true ∧
      r.2.1 = Line.starting test_name :: (print_topk partial_sort T TOPK ++ [Line.elapsed])) ∧
    ((count_files_test_loop count_files TEST_COUNT 0 [] opened).isSome = true →
      (count_files_test partial_sort test_name count_files opened).isSome = true) := by
  constructor
  · intro r h
    simp only [count_files_test] at h
    cases hl : count_files_test_loop count_files TEST_COUNT 0 [] opened with
    | none => rw [hl] at h; cases h
    | some r1 =>
        obtain ⟨b, d1, o1⟩ := r1
        have := hloop _ hl
        simp only at this
        obtain ⟨hb, hd⟩ := this
        subst hb; subst hd
        rw [hl] at h
        simp only [Option.some.injEq] at h
        subst h
        exact ⟨rfl, rfl⟩
  · intro h
    obtain ⟨r1, hl⟩ := Option.isSome_iff_exists.1 h
    obtain ⟨b, d1, o1⟩ := r1
    simp only [count_files_test, hl]
    cases b <;> rfl

/-- C9. Idempotent restart in the benchmark loop: when every file of the list
opens, a run of each strategy on an empty table gives one and the same table,
whatever the schedule, and `count_files_test` returns true and passes to
`print_topk`, after its `TEST_COUNT` iterations, that very table; for the concurrent
strategies this holds for all schedules of the iterations, and schedules that carry
the test to its end exist. -/
theorem idempotent_restart (partial_sort : PartialSort) (fs : FileSystem)
    (filenames : List Str) (test_name : Str) (opened : List Str)
    (hopen : ∀ f ∈ filenames, (fs f).isSome = true) :
    (∀ o, count_files_sync fs filenames [] o
      = (true, mergeOpened fs filenames [], o ++ filenames)) ∧
    (∀ sched o r, count_files_async fs filenames sched [] o = some r →
      r.1 = true ∧ r.2.1 = mergeOpened fs filenames []) ∧
    (∀ sched o r, count_files_thread fs filenames sched [] o = some r →
      r.1 = true ∧ r.2.1 = mergeOpened fs filenames []) ∧
    (∃ log, count_files_test partial_sort test_name
        (fun _ t o => some (count_files_sync fs filenames t o)) opened
      = some (true,
          Line.starting test_name ::
            (print_topk partial_sort (mergeOpened fs filenames []) TOPK ++ [Line.elapsed]),
          log)) ∧
    (∀ (scheds : Nat → List Nat) r, count_files_test partial_sort test_name
        (fun i t o => count_files_async fs filenames (scheds i) t o) opened = some r →
      r.1 = true ∧
      r.2.1 = Line.starting test_name ::
        (print_topk partial_sort (mergeOpened fs filenames []) TOPK ++ [Line.elapsed])) ∧
    (∃ scheds : Nat → List Nat, (count_files_test partial_sort test_name
        (fun i t o => count_files_async fs filenames (scheds i) t o) opened).isSome = true) ∧
    (∀ (scheds : Nat → List Nat) r, count_files_test partial_sort test_name
        (fun i t o => count_files_thread fs filenames (scheds i) t o) opened = some r →
      r.1 = true ∧
      r.2.1 = Line.starting test_name ::
        (print_topk partial_sort (mergeOpened fs filenames []) TOPK ++ [Line.elapsed])) ∧
    (∃ scheds : Nat → List Nat, (count_files_test partial_sort test_name
        (fun i t o => count_files_thread fs filenames (scheds i) t o) opened).isSome = true) := by
  have hall : filenames.all (fun f => (fs f).isSome) = true := by
    simpa [List.all_eq_true] using hopen
  have hsync : ∀ o, count_files_sync fs filenames [] o
      = (true, mergeOpened fs filenames [], o ++ filenames) := by
    intro o
    rw [sync_all_open fs filenames [] o hopen, foldl_count_words_eq _ [] rfl]
    rfl
  have hasync : ∀ sched o r, count_files_async fs filenames sched [] o = some r →
      r.1 = true ∧ r.2.1 = mergeOpened fs filenames [] := by
    intro sched o r hr
    have := async_result fs filenames sched [] o rfl r hr
    exact ⟨this.1.trans hall, this.2⟩
  have hthread : ∀ sched o r, count_files_thread fs filenames sched [] o = some r →
      r.1 = true ∧ r.2.1 = mergeOpened fs filenames [] := by
    intro sched o r hr
    have := thread_result fs filenames sched [] o rfl r hr
    exact ⟨this.1.trans hall, this.2⟩
  refine ⟨hsync, hasync, hthread, ?_, ?_, ?_, ?_, ?_⟩
  · have hl := test_loop_result (fun _ t o => some (count_files_sync fs filenames t o))
      (mergeOpened fs filenames [])
      (fun i o r h => by
        simp only [Option.some.injEq] at h
        subst h
        rw [hsync o]
        exact ⟨rfl, rfl⟩) 4 0 [] opened
    have ht := test_of_loop partial_sort test_name
      (fun _ t o => some (count_files_sync fs filenames t o)) opened _ hl
    have hex := test_loop_exists (fun _ t o => some (count_files_sync fs filenames t o))
      (fun o => ⟨[], rfl⟩) TEST_COUNT 0 [] opened
    obtain ⟨scheds, hs⟩ := hex
    obtain ⟨r, hr⟩ := Option.isSome_iff_exists.1 (ht.2 hs)
    obtain ⟨b, lines, log⟩ := r
    have := ht.1 _ hr
    simp only at this
    obtain ⟨hb, hlines⟩ := this
    subst hb; subst hlines
    exact ⟨log, hr⟩
  · intro scheds r hr
    have hl := test_loop_result (fun i t o => count_files_async fs filenames (scheds i) t o)
      (mergeOpened fs filenames []) (fun i o r h => hasync (scheds i) o r h) 4 0 [] opened
    exact (test_of_loop partial_sort test_name _ opened _ hl).1 r hr
  · obtain ⟨scheds, hs⟩ := test_loop_exists
      (fun sched t o => count_files_async fs filenames sched t o)
      (fun o => by
        obtain ⟨ext, hext⟩ := async_completes fs filenames [] [] o
        exact ⟨ext, by simpa using hext⟩) TEST_COUNT 0 [] opened
    refine ⟨scheds, ?_⟩
    have hl := test_loop_result (fun i t o => count_files_async fs filenames (scheds i) t o)
      (mergeOpened fs filenames []) (fun i o r h => hasync (scheds i) o r h) 4 0 [] opened
    exact (test_of_loop partial_sort test_name _ opened _ hl).2 hs
  · intro scheds r hr
    have hl := test_loop_result (fun i t o => count_files_thread fs filenames (scheds i) t o)
      (mergeOpened fs filenames []) (fun i o r h => hthread (scheds i) o r h) 4 0 [] opened
    exact (test_of_loop partial_sort test_name _ opened _ hl).1 r hr
  · obtain ⟨scheds, hs⟩ := test_loop_exists
      (fun sched t o => count_files_thread fs filenames sched t o)
      (fun o => by
        obtain ⟨ext, hext⟩ := thread_completes fs filenames [] [] o
        exact ⟨ext, by simpa using hext⟩) TEST_COUNT 0 [] opened
    refine ⟨scheds, ?_⟩
    have hl := test_loop_result (fun i t o => count_files_thread fs filenames (scheds i) t o)
      (mergeOpened fs filenames []) (fun i o r h => hthread (scheds i) o r h) 4 0 [] opened
    exact (test_of_loop partial_sort test_name _ opened _ hl).2 hs

/-- C9, on two files: the sequential test passes the table of one run to
`print_topk`. -/
theorem idempotent_restart_witness :
    (∀ f ∈ [bytes "f1", bytes "f2"], (exampleFs f).isSome = true) ∧
    mergeOpened exampleFs [bytes "f1", bytes "f2"] []
      = [(bytes "a", 2), (bytes "b", 1), (bytes "c", 1)] ∧
    count_files_sync exampleFs [bytes "f1", bytes "f2"] [] []
      = (true, mergeOpened exampleFs [bytes "f1", bytes "f2"] [],
          [] ++ [bytes "f1", bytes "f2"]) :=
  ⟨by decide, by decide,
    (idempotent_restart gnu_partial_sort exampleFs [bytes "f1", bytes "f2"] (bytes "Sync test")
      [] (by decide)).1 []⟩

end TopkWords
